import Mathlib

/-!
A shallow embedding of the `jwt` Go library (package `jwt`): token data
model, claim/scope mutation, canonical serialization, wire parsing, and the
ES256 signer/verifier pair, together with proofs of its specified
properties.

Modelling conventions:
* Go byte slices are `List Nat` (each element intended `< 256`); a possibly
  nil slice is an `Option (List Nat)`.
* `interface\x7b\x7d` values stored in a token body form the inductive
  `GoValue`; the in-memory `[]string` scope list kept by `AddScope` is the
  distinguished constructor `GoValue.strList`, while a JSON array decoded
  by `encoding/json` is `GoValue.arr`, mirroring the distinct dynamic types
  in Go.
* JSON numbers are modelled as integers; Go maps are association lists
  whose operations (lookup, insert with overwrite, erase) mirror map
  semantics, and `json.Marshal` iterates keys in sorted order as Go does.
* `crypto/ecdsa` over P-256 is modelled over an arbitrary additive group
  with a generator of prime order and an abstract x-coordinate-mod-n
  function; SHA-256 is an abstract hash function parameter.
-/

namespace Jwt

/-! ## Bytes and big-endian integers -/

/-- Big-endian value of a byte string, as computed by `big.Int.SetBytes`. -/
def bytesToNat (bs : List Nat) : Nat := bs.foldl (fun acc b => acc * 256 + b) 0

/-- Minimal big-endian bytes of `m` (empty for `0`), as `big.Int.Bytes`
returns.  The first argument is recursion fuel; `bigIntBytes` supplies
enough for any value. -/
def bigIntBytesAux : Nat → Nat → List Nat
  | 0, _ => []
  | f + 1, m => if m = 0 then [] else bigIntBytesAux f (m / 256) ++ [m % 256]

/-- Model of `big.Int.Bytes`: the absolute value as a minimal big-endian
byte string. -/
def bigIntBytes (m : Nat) : List Nat := bigIntBytesAux m m

/-- `L`-byte big-endian encoding of `m`, written from the specification:
the value as an unsigned big-endian integer left-padded with zero bytes to
exactly `L` bytes. -/
def beBytes : Nat → Nat → List Nat
  | 0, _ => []
  | l + 1, m => m / 256 ^ l :: beBytes l (m % 256 ^ l)

/-! ## Unpadded base64url (`base64.RawURLEncoding`) -/

/-- The base64url alphabet, digit to character. -/
def b64Char (v : Nat) : Char :=
  if v < 26 then Char.ofNat (65 + v)
  else if v < 52 then Char.ofNat (97 + (v - 26))
  else if v < 62 then Char.ofNat (48 + (v - 52))
  else if v = 62 then '-'
  else '_'

/-- The base64url alphabet, character to digit; `none` off the alphabet. -/
def b64Val (c : Char) : Option Nat :=
  let v := c.toNat
  if 65 ≤ v ∧ v ≤ 90 then some (v - 65)
  else if 97 ≤ v ∧ v ≤ 122 then some (26 + (v - 97))
  else if 48 ≤ v ∧ v ≤ 57 then some (52 + (v - 48))
  else if c = '-' then some 62
  else if c = '_' then some 63
  else none

/-- Unpadded base64url encoding of a byte string
(`base64.RawURLEncoding.EncodeToString`). -/
def encodeB64 : List Nat → List Char
  | [] => []
  | [a] => [b64Char (a / 4), b64Char (a % 4 * 16)]
  | [a, b] => [b64Char (a / 4), b64Char (a % 4 * 16 + b / 16), b64Char (b % 16 * 4)]
  | a :: b :: c :: rest =>
    b64Char (a / 4) :: b64Char (a % 4 * 16 + b / 16) :: b64Char (b % 16 * 4 + c / 64) ::
      b64Char (c % 64) :: encodeB64 rest

/-- Unpadded base64url decoding (`base64.RawURLEncoding.DecodeString`):
`none` on a character off the alphabet or a leftover of one character. -/
def decodeB64 : List Char → Option (List Nat)
  | [] => some []
  | [_] => none
  | [w, x] =>
    match b64Val w, b64Val x with
    | some a, some b => some [a * 4 + b / 16]
    | _, _ => none
  | [w, x, y] =>
    match b64Val w, b64Val x, b64Val y with
    | some a, some b, some c => some [a * 4 + b / 16, b % 16 * 16 + c / 4]
    | _, _, _ => none
  | w :: x :: y :: z :: rest =>
    match b64Val w, b64Val x, b64Val y, b64Val z, decodeB64 rest with
    | some a, some b, some c, some d, some bs =>
      some ((a * 4 + b / 16) :: (b % 16 * 16 + c / 4) :: (c % 4 * 64 + d) :: bs)
    | _, _, _, _, _ => none

/-! ## UTF-8 -/

/-- UTF-8 encoding of one scalar value. -/
def utf8EncodeChar (c : Char) : List Nat :=
  let v := c.toNat
  if v < 128 then [v]
  else if v < 2048 then [192 + v / 64, 128 + v % 64]
  else if v < 65536 then [224 + v / 4096, 128 + v / 64 % 64, 128 + v % 64]
  else [240 + v / 262144, 128 + v / 4096 % 64, 128 + v / 64 % 64, 128 + v % 64]

/-- UTF-8 encoding of a character string into bytes: Go strings are their
UTF-8 bytes. -/
def utf8Encode : List Char → List Nat
  | [] => []
  | c :: cs => utf8EncodeChar c ++ utf8Encode cs

/-- One step of UTF-8 decoding: the leading scalar value and the rest of
the bytes, or `none` on a malformed prefix. -/
def utf8DecodeStep : List Nat → Option (Char × List Nat)
  | [] => none
  | b :: rest =>
    if b < 128 then some (Char.ofNat b, rest)
    else if b < 192 then none
    else if b < 224 then
      match rest with
      | b2 :: rest2 =>
        if 128 ≤ b2 ∧ b2 < 192 then
          some (Char.ofNat ((b - 192) * 64 + (b2 - 128)), rest2)
        else none
      | _ => none
    else if b < 240 then
      match rest with
      | b2 :: b3 :: rest3 =>
        if (128 ≤ b2 ∧ b2 < 192) ∧ (128 ≤ b3 ∧ b3 < 192) then
          some (Char.ofNat ((b - 224) * 4096 + (b2 - 128) * 64 + (b3 - 128)), rest3)
        else none
      | _ => none
    else if b < 248 then
      match rest with
      | b2 :: b3 :: b4 :: rest4 =>
        if (128 ≤ b2 ∧ b2 < 192) ∧ (128 ≤ b3 ∧ b3 < 192) ∧ (128 ≤ b4 ∧ b4 < 192) then
          some
            (Char.ofNat ((b - 240) * 262144 + (b2 - 128) * 4096 + (b3 - 128) * 64 + (b4 - 128)),
              rest4)
        else none
      | _ => none
    else none

/-- UTF-8 decoding loop; the fuel always suffices when at least the byte
count plus one, each step consuming at least one byte. -/
def utf8DecodeLoop : Nat → List Nat → Option (List Char)
  | 0, _ => none
  | _ + 1, [] => some []
  | f + 1, b :: rest =>
    match utf8DecodeStep (b :: rest) with
    | some (c, rest2) => (utf8DecodeLoop f rest2).map (fun cs => c :: cs)
    | none => none

/-- UTF-8 decoding of a byte string; `none` on a malformed sequence. -/
def utf8Decode (bs : List Nat) : Option (List Char) := utf8DecodeLoop (bs.length + 1) bs

/-! ## Dynamically typed body values

`GoValue` models a Go `interface` value stored in a token body.
`strList` is the in-memory `[]string` produced by `AddScope`; `arr` is the
`[]interface` value produced by `json.Unmarshal`; `obj` is a nested
`map[string]interface` as an association list.  `GoValueList` and
`GoPairs` are ordinary lists, spelled as mutual inductives so that all
recursions over values stay structural. -/

mutual

inductive GoValue where
  | str (s : String)
  | num (i : Int)
  | bool (b : Bool)
  | null
  | strList (xs : List String)
  | arr (xs : GoValueList)
  | obj (kvs : GoPairs)

inductive GoValueList where
  | nil
  | cons (v : GoValue) (tl : GoValueList)

inductive GoPairs where
  | nil
  | cons (k : String) (v : GoValue) (tl : GoPairs)

end

mutual

/-- Structural boolean equality on `GoValue`. -/
def gvBeq : GoValue → GoValue → Bool
  | .str a, .str b => a == b
  | .num a, .num b => a == b
  | .bool a, .bool b => a == b
  | .null, .null => true
  | .strList a, .strList b => a == b
  | .arr a, .arr b => glBeq a b
  | .obj a, .obj b => gpBeq a b
  | _, _ => false

/-- Structural boolean equality on `GoValueList`. -/
def glBeq : GoValueList → GoValueList → Bool
  | .nil, .nil => true
  | .cons a as, .cons b bs => gvBeq a b && glBeq as bs
  | _, _ => false

/-- Structural boolean equality on `GoPairs`. -/
def gpBeq : GoPairs → GoPairs → Bool
  | .nil, .nil => true
  | .cons k a as, .cons k2 b bs => k == k2 && gvBeq a b && gpBeq as bs
  | _, _ => false

end

/-- Membership of a value in a `GoValueList`. -/
def glMem (v : GoValue) : GoValueList → Prop
  | .nil => False
  | .cons w tl => v = w ∨ glMem v tl

/-- Membership of a value among the values of a `GoPairs`. -/
def gpMemVal (v : GoValue) : GoPairs → Prop
  | .nil => False
  | .cons _ w tl => v = w ∨ gpMemVal v tl

/-- The keys of a `GoPairs`, in order. -/
def gpKeys : GoPairs → List String
  | .nil => []
  | .cons k _ tl => k :: gpKeys tl

/-- First-match lookup in a `GoPairs`, the read of a Go map. -/
def pairsLookup : GoPairs → String → Option GoValue
  | .nil, _ => none
  | .cons k v tl, key => if k = key then some v else pairsLookup tl key

/-- Insert-or-overwrite in a `GoPairs`, the write of a Go map. -/
def pairsInsert (key : String) (val : GoValue) : GoPairs → GoPairs
  | .nil => .cons key val .nil
  | .cons k v tl => if k = key then .cons key val tl else .cons k v (pairsInsert key val tl)

/-- Key removal from a `GoPairs`, the `delete` of a Go map. -/
def pairsErase (key : String) : GoPairs → GoPairs
  | .nil => .nil
  | .cons k v tl => if k = key then pairsErase key tl else .cons k v (pairsErase key tl)

/-- Left fold of map insertion over a pair list: how `json.Unmarshal`
builds a `map[string]interface` from the members of a JSON object, a
later duplicate key overwriting an earlier one. -/
def pairsFoldInsert (acc : GoPairs) : GoPairs → GoPairs
  | .nil => acc
  | .cons k v tl => pairsFoldInsert (pairsInsert k v acc) tl

/-- Concatenation of two pair lists. -/
def gpAppend : GoPairs → GoPairs → GoPairs
  | .nil, qs => qs
  | .cons k v tl, qs => .cons k v (gpAppend tl qs)

/-- Insertion of one pair into a key-sorted `GoPairs`. -/
def insertPair (key : String) (val : GoValue) : GoPairs → GoPairs
  | .nil => .cons key val .nil
  | .cons k v tl =>
    if k < key then .cons k v (insertPair key val tl) else .cons key val (.cons k v tl)

/-- Sorting a `GoPairs` by key: `json.Marshal` writes the members of a Go
map in sorted key order. -/
def sortPairs : GoPairs → GoPairs
  | .nil => .nil
  | .cons k v tl => insertPair k v (sortPairs tl)

mutual

/-- Well-formedness of a `GoValue`: every nested object has no duplicate
keys, as holds of any value representable by a Go map. -/
inductive GoValue.WF : GoValue → Prop where
  | str (s : String) : GoValue.WF (.str s)
  | num (i : Int) : GoValue.WF (.num i)
  | bool (b : Bool) : GoValue.WF (.bool b)
  | null : GoValue.WF .null
  | strList (xs : List String) : GoValue.WF (.strList xs)
  | arr {xs : GoValueList} : GoValueList.WF xs → GoValue.WF (.arr xs)
  | obj {kvs : GoPairs} : (gpKeys kvs).Nodup → GoPairs.WF kvs → GoValue.WF (.obj kvs)

/-- Well-formedness of every element of a `GoValueList`. -/
inductive GoValueList.WF : GoValueList → Prop where
  | nil : GoValueList.WF .nil
  | cons {v : GoValue} {tl : GoValueList} :
      GoValue.WF v → GoValueList.WF tl → GoValueList.WF (.cons v tl)

/-- Well-formedness of every value of a `GoPairs`. -/
inductive GoPairs.WF : GoPairs → Prop where
  | nil : GoPairs.WF .nil
  | cons {k : String} {v : GoValue} {tl : GoPairs} :
      GoValue.WF v → GoPairs.WF tl → GoPairs.WF (.cons k v tl)

end

mutual

/-- Node count of a `GoValue`, used as parser fuel. -/
def gvSize : GoValue → Nat
  | .str _ => 1
  | .num _ => 1
  | .bool _ => 1
  | .null => 1
  | .strList _ => 2
  | .arr xs => glSize xs + 1
  | .obj kvs => gpSize kvs + 1

/-- Node count of a `GoValueList`. -/
def glSize : GoValueList → Nat
  | .nil => 0
  | .cons v tl => gvSize v + glSize tl

/-- Node count of a `GoPairs`. -/
def gpSize : GoPairs → Nat
  | .nil => 0
  | .cons _ v tl => gvSize v + gpSize tl

end

/-! ## JSON encoding (`json.Marshal`) -/

/-- The `\x7b` character, written by code point to keep braces out of
string literals. -/
def lbrace : Char := Char.ofNat 123

/-- The `\x7d` character. -/
def rbrace : Char := Char.ofNat 125

/-- Lowercase hexadecimal digit, as `encoding/json` uses. -/
def hexDigitChar (v : Nat) : Char :=
  if v < 10 then Char.ofNat (48 + v) else Char.ofNat (87 + v)

/-- How `encoding/json` writes one character inside a string literal:
quote, backslash, newline, carriage return and tab get two-character
escapes; other control characters and (HTML-escaping being the default)
`<`, `>`, `&` get `\u00xx`; U+2028 and U+2029 get `\u202x`; everything
else is written literally. -/
def escapeChar (c : Char) : List Char :=
  if c = '"' then ['\\', '"']
  else if c = '\\' then ['\\', '\\']
  else if c = '\n' then ['\\', 'n']
  else if c = '\r' then ['\\', 'r']
  else if c = '\t' then ['\\', 't']
  else if c.toNat < 32 ∨ c = '<' ∨ c = '>' ∨ c = '&' then
    ['\\', 'u', '0', '0', hexDigitChar (c.toNat / 16), hexDigitChar (c.toNat % 16)]
  else if c.toNat = 8232 ∨ c.toNat = 8233 then
    ['\\', 'u', '2', '0', '2', hexDigitChar (c.toNat % 16)]
  else [c]

/-- The escaped body of a JSON string literal. -/
def marshalStringBody : List Char → List Char
  | [] => []
  | c :: cs => escapeChar c ++ marshalStringBody cs

/-- A JSON string literal. -/
def marshalString (s : String) : List Char := '"' :: marshalStringBody s.data ++ ['"']

/-- Decimal digits of `m`, most significant first (empty for `0`); the
first argument is recursion fuel. -/
def natDigitsAux : Nat → Nat → List Char
  | 0, _ => []
  | f + 1, m => if m = 0 then [] else natDigitsAux f (m / 10) ++ [Char.ofNat (48 + m % 10)]

/-- Decimal digits of `m`, most significant first. -/
def natDigits (m : Nat) : List Char := if m = 0 then ['0'] else natDigitsAux m m

/-- How `encoding/json` writes an integer. -/
def mIntChars (i : Int) : List Char :=
  if i < 0 then '-' :: natDigits i.natAbs else natDigits i.natAbs

/-- The comma-separated marshaled elements of a `[]string` value. -/
def marshalStrElems : List String → List Char
  | [] => []
  | [s] => marshalString s
  | s :: tl => marshalString s ++ ',' :: marshalStrElems tl

mutual

/-- `sortDeepV` sorts the members of every nested map by key, which is the
order `json.Marshal` writes them in. -/
def sortDeepV : GoValue → GoValue
  | .str s => .str s
  | .num i => .num i
  | .bool b => .bool b
  | .null => .null
  | .strList xs => .strList xs
  | .arr xs => .arr (sortDeepL xs)
  | .obj kvs => .obj (sortPairs (sortDeepP kvs))

/-- `sortDeepV` on each element. -/
def sortDeepL : GoValueList → GoValueList
  | .nil => .nil
  | .cons v tl => .cons (sortDeepV v) (sortDeepL tl)

/-- `sortDeepV` on each value. -/
def sortDeepP : GoPairs → GoPairs
  | .nil => .nil
  | .cons k v tl => .cons k (sortDeepV v) (sortDeepP tl)

end

mutual

/-- The JSON text of a body value whose nested maps are already in
writing order.  `json.Marshal` itself is `jsonMarshal`, which first
applies `sortDeepV`. -/
def marshalValue : GoValue → List Char
  | .str s => marshalString s
  | .num i => mIntChars i
  | .bool true => ['t', 'r', 'u', 'e']
  | .bool false => ['f', 'a', 'l', 's', 'e']
  | .null => ['n', 'u', 'l', 'l']
  | .strList xs => '[' :: marshalStrElems xs ++ [']']
  | .arr xs => '[' :: marshalElems xs ++ [']']
  | .obj kvs => lbrace :: marshalMembers kvs ++ [rbrace]

/-- The comma-separated marshaled elements of a JSON array. -/
def marshalElems : GoValueList → List Char
  | .nil => []
  | .cons v .nil => marshalValue v
  | .cons v tl => marshalValue v ++ ',' :: marshalElems tl

/-- The comma-separated `key:value` members of a JSON object. -/
def marshalMembers : GoPairs → List Char
  | .nil => []
  | .cons k v .nil => marshalString k ++ ':' :: marshalValue v
  | .cons k v tl => marshalString k ++ ':' :: marshalValue v ++ ',' :: marshalMembers tl

end

/-- `json.Marshal` of a body value: members of every map written in
sorted key order. -/
def jsonMarshal (v : GoValue) : List Char := marshalValue (sortDeepV v)

/-- Conversion of a `[]string` to the generic array value its JSON text
denotes. -/
def strListToArr : List String → GoValueList
  | [] => .nil
  | s :: tl => .cons (.str s) (strListToArr tl)

mutual

/-- `stripV` replaces every `strList` by the generic array of strings its
JSON text denotes, leaving everything else in place. -/
def stripV : GoValue → GoValue
  | .str s => .str s
  | .num i => .num i
  | .bool b => .bool b
  | .null => .null
  | .strList xs => .arr (strListToArr xs)
  | .arr xs => .arr (stripL xs)
  | .obj kvs => .obj (stripP kvs)

/-- `stripV` on each element. -/
def stripL : GoValueList → GoValueList
  | .nil => .nil
  | .cons v tl => .cons (stripV v) (stripL tl)

/-- `stripV` on each value. -/
def stripP : GoPairs → GoPairs
  | .nil => .nil
  | .cons k v tl => .cons k (stripV v) (stripP tl)

end

/-- The image of a body value under a JSON round trip: every nested map
reappears with sorted keys, and a `strList` reappears as a generic array
of strings.  On values containing neither, this is the identity. -/
def normalizeGoValue (v : GoValue) : GoValue := stripV (sortDeepV v)

/-- The image of a whole body under a JSON round trip. -/
def normalizeBody (kvs : GoPairs) : GoPairs := stripP (sortPairs (sortDeepP kvs))

/-! ## JSON decoding (`json.Unmarshal`) -/

/-- The whitespace characters the JSON scanner skips. -/
def isJsonWs (c : Char) : Bool := c = ' ' ∨ c = '\t' ∨ c = '\n' ∨ c = '\r'

/-- Skip insignificant whitespace. -/
def skipWs : List Char → List Char
  | [] => []
  | c :: cs => if isJsonWs c then skipWs cs else c :: cs

/-- Value of one hexadecimal digit, either case. -/
def hexVal (c : Char) : Option Nat :=
  let v := c.toNat
  if 48 ≤ v ∧ v ≤ 57 then some (v - 48)
  else if 97 ≤ v ∧ v ≤ 102 then some (10 + (v - 97))
  else if 65 ≤ v ∧ v ≤ 70 then some (10 + (v - 65))
  else none

/-- Value of a `\uXXXX` escape's four hexadecimal digits. -/
def parseHex4 (a b c d : Char) : Option Nat :=
  match hexVal a, hexVal b, hexVal c, hexVal d with
  | some x, some y, some z, some w => some (x * 4096 + y * 256 + z * 16 + w)
  | _, _, _, _ => none

/-- Whether a code unit is a high surrogate. -/
def isHighSurrogate (u : Nat) : Bool := 55296 ≤ u ∧ u ≤ 56319

/-- Whether a code unit is a low surrogate. -/
def isLowSurrogate (u : Nat) : Bool := 56320 ≤ u ∧ u ≤ 57343

/-- The `\\uXXXX` handling of the JSON string decoder, after the four
hexadecimal digits have been read: a high surrogate tries to combine
with a following low surrogate escape, an unpaired surrogate becomes
U+FFFD as in `encoding/json`, and any other value becomes that scalar.
`pv` parses the remainder of the string body. -/
def parseU (pv : List Char → Option (List Char × List Char)) (a b c2 d : Char)
    (rest3 : List Char) : Option (List Char × List Char) :=
  match parseHex4 a b c2 d with
  | Option.none => none
  | some u =>
    if isHighSurrogate u then
      match rest3 with
      | '\\' :: 'u' :: a2 :: b2 :: c3 :: d2 :: rest4 =>
        match parseHex4 a2 b2 c3 d2 with
        | some u2 =>
          if isLowSurrogate u2 then
            (pv rest4).map
              (fun p => (Char.ofNat (65536 + (u - 55296) * 1024 + (u2 - 56320)) :: p.1, p.2))
          else (pv rest3).map (fun p => (Char.ofNat 65533 :: p.1, p.2))
        | Option.none => (pv rest3).map (fun p => (Char.ofNat 65533 :: p.1, p.2))
      | _ => (pv rest3).map (fun p => (Char.ofNat 65533 :: p.1, p.2))
    else if isLowSurrogate u then (pv rest3).map (fun p => (Char.ofNat 65533 :: p.1, p.2))
    else (pv rest3).map (fun p => (Char.ofNat u :: p.1, p.2))

/-- One escape sequence of a JSON string literal, after the backslash:
the standard two-character escapes and the `\\uXXXX` form.  `pv` parses
the remainder of the string body. -/
def parseEscape (pv : List Char → Option (List Char × List Char)) :
    List Char → Option (List Char × List Char)
  | [] => none
  | e :: rest2 =>
    if e = '"' ∨ e = '\\' ∨ e = '/' then (pv rest2).map (fun p => (e :: p.1, p.2))
    else if e = 'b' then (pv rest2).map (fun p => (Char.ofNat 8 :: p.1, p.2))
    else if e = 'f' then (pv rest2).map (fun p => (Char.ofNat 12 :: p.1, p.2))
    else if e = 'n' then (pv rest2).map (fun p => ('\n' :: p.1, p.2))
    else if e = 'r' then (pv rest2).map (fun p => ('\r' :: p.1, p.2))
    else if e = 't' then (pv rest2).map (fun p => ('\t' :: p.1, p.2))
    else if e = 'u' then
      match rest2 with
      | a :: b :: c2 :: d :: rest3 => parseU pv a b c2 d rest3
      | _ => none
    else none

/-- The body of a JSON string literal after its opening quote: unescapes
the standard escapes, combines surrogate pairs, replaces an unpaired
surrogate by U+FFFD as `encoding/json` does, and rejects raw control
characters.  Returns the decoded characters and the input after the
closing quote.  The first argument is recursion fuel; every caller passes
at least the input length plus one, which always suffices since each step
consumes at least one character. -/
def parseStringBody : Nat → List Char → Option (List Char × List Char)
  | 0, _ => none
  | _, [] => none
  | f + 1, c :: rest =>
    if c = '"' then some ([], rest)
    else if c = '\\' then parseEscape (parseStringBody f) rest
    else if c.toNat < 32 then none
    else (parseStringBody f rest).map (fun p => (c :: p.1, p.2))

/-- Whether a character is a decimal digit. -/
def isDigitChar (c : Char) : Bool := 48 ≤ c.toNat ∧ c.toNat ≤ 57

/-- Consume leading decimal digits, most significant first. -/
def parseDigitsAux (acc : Nat) : List Char → Nat × List Char
  | [] => (acc, [])
  | c :: cs =>
    if isDigitChar c then parseDigitsAux (acc * 10 + (c.toNat - 48)) cs else (acc, c :: cs)

/-- A negated JSON integer, after its minus sign. -/
def parseNegNumber : List Char → Option (GoValue × List Char)
  | [] => none
  | c2 :: cs2 =>
    if isDigitChar c2 then
      some (.num (-((parseDigitsAux 0 (c2 :: cs2)).1 : Int)), (parseDigitsAux 0 (c2 :: cs2)).2)
    else none

/-- Parse a JSON integer (an optional minus sign and decimal digits).
Fractions and exponents, which Go would decode to a `float64`, are
outside the integer number model. -/
def parseNumber : List Char → Option (GoValue × List Char)
  | [] => none
  | c :: cs =>
    if c = '-' then parseNegNumber cs
    else if isDigitChar c then
      some (.num ((parseDigitsAux 0 (c :: cs)).1 : Int), (parseDigitsAux 0 (c :: cs)).2)
    else none

/-- After one array element: a comma continues with `recurse`, a closing
bracket ends the array. -/
def elemsAfter (recurse : List Char → Option (GoValueList × List Char)) (v : GoValue)
    (r : List Char) : Option (GoValueList × List Char) :=
  match skipWs r with
  | [] => none
  | c :: r2 =>
    if c = ',' then (recurse r2).map (fun p => (GoValueList.cons v p.1, p.2))
    else if c = ']' then some (.cons v .nil, r2)
    else none

/-- Parse the elements of a non-empty JSON array after its opening
bracket, given a parser `pv` for one value; consumes the closing
bracket.  The fuel is at least the input length wherever this is
called. -/
def parseElemsAux (pv : List Char → Option (GoValue × List Char)) :
    Nat → List Char → Option (GoValueList × List Char)
  | 0, _ => none
  | f + 1, cs =>
    match pv cs with
    | Option.none => none
    | some (v, r) => elemsAfter (parseElemsAux pv f) v r

/-- After one object member: a comma continues with `recurse`, a closing
brace ends the object. -/
def membersAfter (recurse : List Char → Option (GoPairs × List Char)) (k : String)
    (v : GoValue) (r : List Char) : Option (GoPairs × List Char) :=
  match skipWs r with
  | [] => none
  | c :: r2 =>
    if c = ',' then (recurse r2).map (fun p => (GoPairs.cons k v p.1, p.2))
    else if c = rbrace then some (.cons k v .nil, r2)
    else none

/-- After an object member name: a colon and then the member value. -/
def membersColon (pv : List Char → Option (GoValue × List Char))
    (recurse : List Char → Option (GoPairs × List Char)) (k : List Char) (r : List Char) :
    Option (GoPairs × List Char) :=
  match skipWs r with
  | [] => none
  | c :: r2 =>
    if c = ':' then
      match pv r2 with
      | Option.none => none
      | some (v, r3) => membersAfter recurse (String.mk k) v r3
    else none

/-- Parse the members of a non-empty JSON object after its opening brace,
given a parser `pv` for one value; consumes the closing brace. -/
def parseMembersAux (pv : List Char → Option (GoValue × List Char)) :
    Nat → List Char → Option (GoPairs × List Char)
  | 0, _ => none
  | f + 1, cs =>
    match skipWs cs with
    | [] => none
    | c :: r =>
      if c = '"' then
        match parseStringBody (r.length + 1) r with
        | Option.none => none
        | some (k, r2) => membersColon pv (parseMembersAux pv f) k r2
      else none

/-- Dispatch on the first significant character of a JSON value, `pv`
parsing nested values.  Produces the `interface` representation
`json.Unmarshal` builds: an object becomes a map, a later duplicate key
overwriting an earlier one. -/
def parseValueHead (pv : List Char → Option (GoValue × List Char)) (c : Char)
    (r : List Char) : Option (GoValue × List Char) :=
  if c = 'n' then
    match r with
    | 'u' :: 'l' :: 'l' :: r2 => some (.null, r2)
    | _ => none
  else if c = 't' then
    match r with
    | 'r' :: 'u' :: 'e' :: r2 => some (.bool true, r2)
    | _ => none
  else if c = 'f' then
    match r with
    | 'a' :: 'l' :: 's' :: 'e' :: r2 => some (.bool false, r2)
    | _ => none
  else if c = '"' then
    (parseStringBody (r.length + 1) r).map (fun p => (GoValue.str (String.mk p.1), p.2))
  else if c = '[' then
    match skipWs r with
    | [] => none
    | c2 :: r2 =>
      if c2 = ']' then some (.arr .nil, r2)
      else (parseElemsAux pv ((c2 :: r2).length + 1) (c2 :: r2)).map
        (fun p => (GoValue.arr p.1, p.2))
  else if c = lbrace then
    match skipWs r with
    | [] => none
    | c2 :: r2 =>
      if c2 = rbrace then some (.obj .nil, r2)
      else (parseMembersAux pv ((c2 :: r2).length + 1) (c2 :: r2)).map
        (fun p => (GoValue.obj (pairsFoldInsert .nil p.1), p.2))
  else parseNumber (c :: r)

/-- Parse one JSON value.  The fuel argument is at least the node count
of any value whose text fits in the input. -/
def parseValue : Nat → List Char → Option (GoValue × List Char)
  | 0, _ => none
  | f + 1, cs =>
    match skipWs cs with
    | [] => none
    | c :: r => parseValueHead (parseValue f) c r

/-- A boundary for the number scanner: the remainder is empty or starts
with a non-digit, so a digit scan cannot run past it. -/
def numBoundary (rest : List Char) : Prop :=
  ∀ c, rest.head? = some c → isDigitChar c = false

/-- `json.Unmarshal` of a whole byte string into an `interface` value:
UTF-8 decode, parse one value, allow only trailing whitespace. -/
def unmarshalTop (bs : List Nat) : Option GoValue :=
  match utf8Decode bs with
  | none => none
  | some cs =>
    match parseValue (cs.length + 1) cs with
    | some (v, rest) => if skipWs rest = [] then some v else none
    | none => none

/-! ## The token data model -/

/-- `Algorithm` is a string alias naming a signature type. -/
abbrev Algorithm := String

/-- The `None` algorithm tag. -/
def None : Algorithm := "None"

/-- The `ES256` algorithm tag. -/
def ES256 : Algorithm := "ES256"

/-- A JWT header: algorithm tag and token type.  The Go field `Type` is
spelled `Typ` because `Type` is reserved in Lean. -/
structure Header where
  Algorithm : Algorithm
  Typ : String
  deriving DecidableEq

/-- `NewHeader` creates a new Header. -/
def NewHeader : Header := { Algorithm := None, Typ := "JWT" }

/-- A token body: a `map[string]interface` from claim name to value. -/
abbrev Body := GoPairs

/-- A (potentially signed) JWT token.  `Signature = Option.none` models a
nil Go slice; `some []` a present zero-length slice. -/
structure Token where
  Header : Header
  Body : Body
  Signature : Option (List Nat)

/-- The Go error values this library surfaces. -/
inductive GoErr where
  | invalidTokenStructure
  | immutable
  | base64CorruptInput
  | jsonError
  | custom (msg : String)
  deriving DecidableEq

/-- `ErrInvalidTokenStructure` is returned when the provided token has an
invalid structure. -/
def ErrInvalidTokenStructure : GoErr := .invalidTokenStructure

/-- `ErrImmutable` is returned when an operation cannot be completed due
to the token being signed. -/
def ErrImmutable : GoErr := .immutable

/-- `NewToken` creates a new, empty, unsigned JWT. -/
def NewToken : Token := { Header := NewHeader, Body := .nil, Signature := none }

/-- Whether a character is whitespace for `unicode.IsSpace`, which
`strings.TrimSpace` trims. -/
def isGoSpace (c : Char) : Bool :=
  let v := c.toNat
  v = 32 ∨ (9 ≤ v ∧ v ≤ 13) ∨ v = 133 ∨ v = 160 ∨ v = 5760 ∨ (8192 ≤ v ∧ v ≤ 8202) ∨
    v = 8232 ∨ v = 8233 ∨ v = 8239 ∨ v = 8287 ∨ v = 12288

/-- Model of `strings.TrimSpace`: drop leading and trailing whitespace. -/
def trimSpace (s : String) : String :=
  String.mk (((s.data.dropWhile isGoSpace).reverse.dropWhile isGoSpace).reverse)

/-- `IsSigned` returns true when the token has a signature present;
it does not state anything about the validity of an attached signature. -/
def Token.IsSigned (t : Token) : Bool := t.Signature.isSome

/-- `AddScope` adds a scope to the token; a no-op if the token is
signed.  A failed `[]string` type assertion on the stored claim (absent
key, or any value other than an in-memory string list) yields the nil
slice to append to. -/
def Token.AddScope (t : Token) (scope : String) : Token :=
  if t.IsSigned then t
  else
    let scope := trimSpace scope
    let scopes : List String :=
      match pairsLookup t.Body "scope" with
      | some (.strList xs) => xs
      | _ => []
    { t with Body := pairsInsert "scope" (.strList (scopes ++ [scope])) t.Body }

/-- `RemoveScope` removes a scope from the token; a no-op if the token is
signed.  On the first matching entry it swaps that entry with the last
one and truncates by one. -/
def Token.RemoveScope (t : Token) (scope : String) : Token :=
  if t.IsSigned then t
  else
    let scope := trimSpace scope
    match pairsLookup t.Body "scope" with
    | some (.strList xs) =>
      match xs.findIdx? (fun v => v == scope) with
      | some i =>
        let swapped := (xs.set i (xs.getLastD "")).set (xs.length - 1) (xs.getD i "")
        { t with Body := pairsInsert "scope" (.strList (swapped.take (xs.length - 1))) t.Body }
      | Option.none => t
    | _ => t

/-- `HasScope` returns true if the token has the provided scope. -/
def Token.HasScope (t : Token) (scope : String) : Bool :=
  match pairsLookup t.Body "scope" with
  | some (.strList xs) => xs.contains scope
  | _ => false

/-- `AddClaim` adds a claim to the token, silently ignoring the reserved
name. -/
def Token.AddClaim (t : Token) (name : String) (value : GoValue) : Token :=
  if name = "scope" then t else { t with Body := pairsInsert name value t.Body }

/-- `RemoveClaim` removes a claim from the token, silently ignoring the
reserved name. -/
def Token.RemoveClaim (t : Token) (name : String) : Token :=
  if name = "scope" then t else { t with Body := pairsErase name t.Body }

/-- `GetClaim` gets the value of a claim, if present; the reserved name
always reads as absent. -/
def Token.GetClaim (t : Token) (name : String) : Option GoValue :=
  if name = "scope" then none else pairsLookup t.Body name

/-- `GetStringClaim` gets the string value of a claim, if present. -/
def Token.GetStringClaim (t : Token) (name : String) : Option String :=
  match t.GetClaim name with
  | some (.str s) => some s
  | _ => none

/-! ## Signing, verification, serialization -/

/-- The `Signer` interface: an algorithm tag and a fallible signing
function over the canonical input string. -/
structure Signer where
  Algorithm : Algorithm
  Sign : String → Except GoErr (List Nat)

/-- The `Verifier` interface: a boolean signature check over the
canonical input string. -/
structure Verifier where
  Verify : String → List Nat → Bool

/-- The JSON text of a header: its two fields under `alg` and `typ`, in
declaration order, as Go marshals a struct. -/
def marshalHeader (h : Header) : List Char :=
  lbrace :: '"' :: 'a' :: 'l' :: 'g' :: '"' :: ':' :: marshalString h.Algorithm ++
    ',' :: '"' :: 't' :: 'y' :: 'p' :: '"' :: ':' :: marshalString h.Typ ++ [rbrace]

/-- The canonical input: dot-joined unpadded base64url encodings of the
header JSON and body JSON.  `json.Marshal` cannot fail on these types, so
the Go error return is always nil and the model is total. -/
def serializeHeaderAndBody (header : Header) (body : Body) : String :=
  String.mk
    (encodeB64 (utf8Encode (marshalHeader header)) ++
      '.' :: encodeB64 (utf8Encode (jsonMarshal (.obj body))))

/-- `Sign` signs the token with the provided Signer.  The pair returned
models Go's (error result, receiver state after the call). -/
def Token.Sign (t : Token) (signer : Signer) : Option GoErr × Token :=
  if t.IsSigned then (some ErrImmutable, t)
  else
    let newHeader : Jwt.Header := { Typ := t.Header.Typ, Algorithm := signer.Algorithm }
    match signer.Sign (serializeHeaderAndBody newHeader t.Body) with
    | .error err => (some err, t)
    | .ok signature => (none, { t with Header := newHeader, Signature := some signature })

/-- `Verify` verifies the signature on the token, if present, using the
provided verifier. -/
def Token.Verify (t : Token) (verifier : Verifier) : Bool :=
  if t.IsSigned then
    verifier.Verify (serializeHeaderAndBody t.Header t.Body) (t.Signature.getD [])
  else false

/-- `Serialize` serializes the token to its string form: the canonical
input, a dot, and the base64url signature (empty for a nil signature). -/
def Token.Serialize (t : Token) : String :=
  String.mk
    ((serializeHeaderAndBody t.Header t.Body).data ++ '.' :: encodeB64 (t.Signature.getD []))

/-- Model of `strings.Split` on the dot separator. -/
def splitOnDot : List Char → List (List Char)
  | [] => [[]]
  | c :: cs =>
    if c = '.' then [] :: splitOnDot cs
    else
      match splitOnDot cs with
      | [] => [[c]]
      | seg :: segs => (c :: seg) :: segs

/-- ASCII lowering, for the case-insensitive JSON field match. -/
def toLowerAscii (c : Char) : Char :=
  if 65 ≤ c.toNat ∧ c.toNat ≤ 90 then Char.ofNat (c.toNat + 32) else c

/-- Case-insensitive character list equality. -/
def eqFoldChars : List Char → List Char → Bool
  | [], [] => true
  | a :: as, b :: bs => toLowerAscii a == toLowerAscii b && eqFoldChars as bs
  | _, _ => false

/-- Model of the case-insensitive field-name match `encoding/json` uses
when decoding into a struct. -/
def equalFold (a b : String) : Bool := eqFoldChars a.data b.data

/-- Fold the members of a decoded JSON object into a `Header`, in input
order: a key matching `alg` or `typ` case-insensitively sets that field
from a string (a JSON null leaves the field, any other type is an
error); unknown keys are ignored. -/
def headerFromPairs : GoPairs → Header → Except GoErr Header
  | .nil, h => .ok h
  | .cons k v tl, h =>
    if equalFold k "alg" then
      match v with
      | .str s => headerFromPairs tl { h with Algorithm := s }
      | .null => headerFromPairs tl h
      | _ => .error .jsonError
    else if equalFold k "typ" then
      match v with
      | .str s => headerFromPairs tl { h with Typ := s }
      | .null => headerFromPairs tl h
      | _ => .error .jsonError
    else headerFromPairs tl h

/-- `json.Unmarshal` of the header segment into a `Header` struct: a JSON
null leaves the zero value, an object is folded field by field, anything
else is an error. -/
def unmarshalHeader (bs : List Nat) : Except GoErr Header :=
  match unmarshalTop bs with
  | some .null => .ok { Algorithm := "", Typ := "" }
  | some (.obj kvs) => headerFromPairs kvs { Algorithm := "", Typ := "" }
  | some _ => .error .jsonError
  | Option.none => .error .jsonError

/-- `json.Unmarshal` of the body segment into a `Body` map: a JSON null
leaves the empty map, an object is taken as is, anything else is an
error. -/
def unmarshalBody (bs : List Nat) : Except GoErr Body :=
  match unmarshalTop bs with
  | some .null => .ok .nil
  | some (.obj kvs) => .ok kvs
  | some _ => .error .jsonError
  | Option.none => .error .jsonError

/-- `Parse` parses the provided string token: split on dots into exactly
three segments, base64url-decode each, JSON-decode header and body, and
take the raw decoded third segment as the signature (always present,
possibly zero-length). -/
def Parse (tokenString : String) : Except GoErr Token :=
  match splitOnDot tokenString.data with
  | [seg0, seg1, seg2] =>
    match decodeB64 seg0 with
    | Option.none => .error .base64CorruptInput
    | some rawHeader =>
      match decodeB64 seg1 with
      | Option.none => .error .base64CorruptInput
      | some rawBody =>
        match decodeB64 seg2 with
        | Option.none => .error .base64CorruptInput
        | some rawSignature =>
          match unmarshalHeader rawHeader with
          | .error err => .error err
          | .ok header =>
            match unmarshalBody rawBody with
            | .error err => .error err
            | .ok body => .ok { Header := header, Body := body, Signature := some rawSignature }
  | _ => .error ErrInvalidTokenStructure

/-! ## The ES256 signer and verifier

`crypto/ecdsa` over P-256 is modelled over an abstract curve group: an
additive commutative group `P` of points with decidable equality, a base
point `G` whose additive order is the prime group order `n`, and a
function `xModN` giving a point's x-coordinate reduced mod `n` (for the
identity its value is never consulted: Go checks for the point at
infinity first).  The SHA-256 digest, as the integer `hashToInt` makes of
it, is an abstract function `hashFn` of the signed string.  The modular
inverse mod the prime `n` is taken by Fermat's little theorem. -/

section ES256

variable (n : Nat) (P : Type) [AddCommGroup P] [DecidableEq P]
variable (G : P) (xModN : P → ZMod n) (hashFn : String → Nat)

/-- The inverse mod the prime `n`, as the power `n - 2`. -/
def zinv (a : ZMod n) : ZMod n := a ^ (n - 2)

/-- One attempt of the ECDSA signing equation with nonce `k`: fails when
`k`, `r` or `s` is zero, in which case Go draws a fresh nonce. -/
def ecdsaSignOnce (d : ZMod n) (z : Nat) (k : ZMod n) : Option (ZMod n × ZMod n) :=
  if k = 0 then none
  else
    let r := xModN (k.val • G)
    if r = 0 then none
    else
      let s := zinv n k * ((z : ZMod n) + r * d)
      if s = 0 then none else some (r, s)

/-- The `ecdsa.Sign` retry loop, drawing nonces from the entropy stream
`ks` until an attempt succeeds; an exhausted stream models a failing
random source. -/
def ecdsaSignLoop (d : ZMod n) (z : Nat) : List (ZMod n) → Option (ZMod n × ZMod n)
  | [] => none
  | k :: ks =>
    match ecdsaSignOnce n P G xModN d z k with
    | some rs => some rs
    | Option.none => ecdsaSignLoop d z ks

/-- The `ecdsa.Verify` predicate: require `r, s` in `[1, n-1]`, compute
`u1 = z/s`, `u2 = r/s`, and accept when `u1 G + u2 Q` is not the identity
and its x-coordinate mod `n` equals `r`. -/
def ecdsaVerify (q : P) (z rI sI : Nat) : Bool :=
  if rI = 0 ∨ n ≤ rI ∨ sI = 0 ∨ n ≤ sI then false
  else
    let r : ZMod n := (rI : ZMod n)
    let w := zinv n (sI : ZMod n)
    let u1 := (z : ZMod n) * w
    let u2 := r * w
    let pt := u1.val • G + u2.val • q
    if pt = 0 then false else decide (xModN pt = r)

/-- `NewES256Signer` creates the ES256 `Signer` for a private key `d`,
with `nonces` the entropy stream backing `rand.Reader`: hash the
canonical input, run the signing loop, and encode `(r, s)` as two
32-byte big-endian integers, each `big.Int.Bytes` output left-padded
with zero bytes. -/
def NewES256Signer (d : ZMod n) (nonces : List (ZMod n)) : Signer where
  Algorithm := ES256
  Sign := fun b64HeaderAndBody =>
    match ecdsaSignLoop n P G xModN d (hashFn b64HeaderAndBody) nonces with
    | Option.none => .error (.custom "entropy source failed")
    | some (r, s) =>
      let rr := bigIntBytes r.val
      let sr := bigIntBytes s.val
      let rrp := List.replicate (32 - rr.length) 0 ++ rr
      let srp := List.replicate (32 - sr.length) 0 ++ sr
      .ok (rrp ++ srp)

/-- `NewES256Verifier` creates the ES256 `Verifier` for a public key `q`:
reject any signature not exactly 64 bytes, split it into two 32-byte
big-endian integers, and run the curve's verification predicate on the
recomputed digest. -/
def NewES256Verifier (q : P) : Verifier where
  Verify := fun b64HeaderAndBody signature =>
    if signature.length = 64 then
      ecdsaVerify n P G xModN q (hashFn b64HeaderAndBody)
        (bytesToNat (signature.take 32)) (bytesToNat (signature.drop 32))
    else false

end ES256

/-! ## Discriminators on body value shapes -/

/-- Whether an optional body value is the in-memory `[]string`
representation, the only shape whose type assertion in `HasScope` and
`RemoveScope` succeeds. -/
def isStrListOpt : Option GoValue → Bool
  | some (.strList _) => true
  | _ => false

mutual

/-- No `[]string` node anywhere in a value: the shape invariant of every
value `json.Unmarshal` builds, which decodes JSON arrays to
`[]interface` values instead. -/
def gvNoStrList : GoValue → Bool
  | .str _ => true
  | .num _ => true
  | .bool _ => true
  | .null => true
  | .strList _ => false
  | .arr xs => glNoStrList xs
  | .obj kvs => gpNoStrList kvs

/-- No `[]string` node in any element. -/
def glNoStrList : GoValueList → Bool
  | .nil => true
  | .cons v tl => gvNoStrList v && glNoStrList tl

/-- No `[]string` node in any value. -/
def gpNoStrList : GoPairs → Bool
  | .nil => true
  | .cons _ v tl => gvNoStrList v && gpNoStrList tl

end

/-! ## Decidable equality of body values -/

mutual

/-- `gvBeq` decides equality of body values. -/
theorem gvBeq_iff : ∀ a b : GoValue, gvBeq a b = true ↔ a = b
  | .str _, .str _ => by simp [gvBeq]
  | .num _, .num _ => by simp [gvBeq]
  | .bool _, .bool _ => by simp [gvBeq]
  | .null, .null => by simp [gvBeq]
  | .strList _, .strList _ => by simp [gvBeq]
  | .arr x, .arr y => by simp [gvBeq, glBeq_iff x y]
  | .obj x, .obj y => by simp [gvBeq, gpBeq_iff x y]
  | .str _, .num _ | .str _, .bool _ | .str _, .null | .str _, .strList _ | .str _, .arr _
  | .str _, .obj _
  | .num _, .str _ | .num _, .bool _ | .num _, .null | .num _, .strList _ | .num _, .arr _
  | .num _, .obj _
  | .bool _, .str _ | .bool _, .num _ | .bool _, .null | .bool _, .strList _ | .bool _, .arr _
  | .bool _, .obj _
  | .null, .str _ | .null, .num _ | .null, .bool _ | .null, .strList _ | .null, .arr _
  | .null, .obj _
  | .strList _, .str _ | .strList _, .num _ | .strList _, .bool _ | .strList _, .null
  | .strList _, .arr _ | .strList _, .obj _
  | .arr _, .str _ | .arr _, .num _ | .arr _, .bool _ | .arr _, .null | .arr _, .strList _
  | .arr _, .obj _
  | .obj _, .str _ | .obj _, .num _ | .obj _, .bool _ | .obj _, .null | .obj _, .strList _
  | .obj _, .arr _ => by simp [gvBeq]

/-- `glBeq` decides equality of value lists. -/
theorem glBeq_iff : ∀ a b : GoValueList, glBeq a b = true ↔ a = b
  | .nil, .nil => by simp [glBeq]
  | .cons x xs, .cons y ys => by simp [glBeq, gvBeq_iff x y, glBeq_iff xs ys]
  | .nil, .cons _ _ | .cons _ _, .nil => by simp [glBeq]

/-- `gpBeq` decides equality of pair lists. -/
theorem gpBeq_iff : ∀ a b : GoPairs, gpBeq a b = true ↔ a = b
  | .nil, .nil => by simp [gpBeq]
  | .cons k x xs, .cons k2 y ys => by
    simp [gpBeq, gvBeq_iff x y, gpBeq_iff xs ys, and_assoc]
  | .nil, .cons _ _ _ | .cons _ _ _, .nil => by simp [gpBeq]

end

instance : DecidableEq GoValue := fun a b => decidable_of_iff _ (gvBeq_iff a b)

instance : DecidableEq GoValueList := fun a b => decidable_of_iff _ (glBeq_iff a b)

instance : DecidableEq GoPairs := fun a b => decidable_of_iff _ (gpBeq_iff a b)

instance : DecidableEq Token := fun a b =>
  decidable_of_iff (a.Header = b.Header ∧ a.Body = b.Body ∧ a.Signature = b.Signature)
    (by cases a; cases b; simp)

instance {ε α : Type} [DecidableEq ε] [DecidableEq α] : DecidableEq (Except ε α) :=
  fun a b =>
    match a, b with
    | .ok x, .ok y => decidable_of_iff (x = y) (by simp)
    | .error e, .error f => decidable_of_iff (e = f) (by simp)
    | .ok _, .error _ => isFalse (by simp)
    | .error _, .ok _ => isFalse (by simp)

/-! ## Byte-string arithmetic -/

/-- Folding bytes from an accumulator. -/
theorem foldl_byte_acc :
    ∀ (xs : List Nat) (acc : Nat),
      xs.foldl (fun a b => a * 256 + b) acc = acc * 256 ^ xs.length + bytesToNat xs := by
  intro xs
  induction xs with
  | nil => intro acc; simp [bytesToNat]
  | cons b xs ih =>
    intro acc
    have hb : bytesToNat (b :: xs) = b * 256 ^ xs.length + bytesToNat xs := by
      show List.foldl _ (0 * 256 + b) xs = _
      rw [ih (0 * 256 + b)]
      ring_nf
    simp only [List.foldl_cons, List.length_cons, hb, ih (acc * 256 + b)]
    ring

/-- The big-endian value of a cons. -/
theorem bytesToNat_cons (b : Nat) (xs : List Nat) :
    bytesToNat (b :: xs) = b * 256 ^ xs.length + bytesToNat xs := by
  show List.foldl _ (0 * 256 + b) xs = _
  rw [foldl_byte_acc]
  ring_nf

/-- A byte string's value is below `256 ^ length`. -/
theorem bytesToNat_lt :
    ∀ xs : List Nat, (∀ b ∈ xs, b < 256) → bytesToNat xs < 256 ^ xs.length := by
  intro xs
  induction xs with
  | nil => intro _; simp [bytesToNat]
  | cons b xs ih =>
    intro h
    have hb : b < 256 := h b (by simp)
    have ht := ih (fun x hx => h x (by simp [hx]))
    rw [bytesToNat_cons]
    calc b * 256 ^ xs.length + bytesToNat xs < b * 256 ^ xs.length + 256 ^ xs.length := by omega
    _ = (b + 1) * 256 ^ xs.length := by ring
    _ ≤ 256 * 256 ^ xs.length := Nat.mul_le_mul_right _ (by omega)
    _ = 256 ^ (b :: xs).length := by rw [List.length_cons, pow_succ]; ring

/-- Leading zero bytes do not change the value. -/
theorem bytesToNat_replicate_zero_append (k : Nat) (xs : List Nat) :
    bytesToNat (List.replicate k 0 ++ xs) = bytesToNat xs := by
  induction k with
  | zero => simp
  | succ k ih =>
    have : List.replicate (k + 1) 0 ++ xs = 0 :: (List.replicate k 0 ++ xs) := by
      simp [List.replicate_succ]
    rw [this, bytesToNat_cons, ih]
    simp

/-- Equal-length byte strings with equal values are equal. -/
theorem bytesToNat_injective :
    ∀ (xs ys : List Nat), xs.length = ys.length → (∀ b ∈ xs, b < 256) →
      (∀ b ∈ ys, b < 256) → bytesToNat xs = bytesToNat ys → xs = ys := by
  intro xs
  induction xs with
  | nil => intro ys hl _ _ _; cases ys with
    | nil => rfl
    | cons _ _ => simp at hl
  | cons a xs ih =>
    intro ys hl hx hy hv
    cases ys with
    | nil => simp at hl
    | cons b ys =>
      have hlen : xs.length = ys.length := by simpa using hl
      have hxa : a < 256 := hx a (by simp)
      have hyb : b < 256 := hy b (by simp)
      have hxt : bytesToNat xs < 256 ^ xs.length :=
        bytesToNat_lt xs (fun x h => hx x (by simp [h]))
      have hyt : bytesToNat ys < 256 ^ ys.length :=
        bytesToNat_lt ys (fun x h => hy x (by simp [h]))
      rw [bytesToNat_cons, bytesToNat_cons, hlen] at hv
      rw [hlen] at hxt
      have hab : a = b := by
        by_contra hne
        rcases Nat.lt_or_ge a b with hlt | hge
        · have h1 : (a + 1) * 256 ^ ys.length ≤ b * 256 ^ ys.length :=
            Nat.mul_le_mul_right _ (by omega)
          have h2 : (a + 1) * 256 ^ ys.length = a * 256 ^ ys.length + 256 ^ ys.length := by ring
          linarith
        · have hgt : b < a := by omega
          have h1 : (b + 1) * 256 ^ ys.length ≤ a * 256 ^ ys.length :=
            Nat.mul_le_mul_right _ (by omega)
          have h2 : (b + 1) * 256 ^ ys.length = b * 256 ^ ys.length + 256 ^ ys.length := by ring
          linarith
      subst hab
      have hvt : bytesToNat xs = bytesToNat ys := by omega
      rw [ih ys hlen (fun x h => hx x (by simp [h])) (fun x h => hy x (by simp [h])) hvt]

/-- `beBytes` has the stated length. -/
theorem beBytes_length : ∀ (l m : Nat), (beBytes l m).length = l := by
  intro l
  induction l with
  | zero => intro m; rfl
  | succ l ih => intro m; simp [beBytes, ih]

/-- `beBytes` produces bytes. -/
theorem beBytes_lt :
    ∀ (l m : Nat), m < 256 ^ l → ∀ b ∈ beBytes l m, b < 256 := by
  intro l
  induction l with
  | zero => intro m _ b hb; simp [beBytes] at hb
  | succ l ih =>
    intro m hm b hb
    simp only [beBytes, List.mem_cons] at hb
    rcases hb with h | h
    · subst h
      have : m < 256 ^ l * 256 := by rw [← pow_succ]; exact hm
      exact Nat.div_lt_of_lt_mul (by omega)
    · exact ih (m % 256 ^ l) (Nat.mod_lt _ (Nat.pos_pow_of_pos l (by omega))) b h

/-- `beBytes` encodes the value it is given. -/
theorem bytesToNat_beBytes : ∀ (l m : Nat), m < 256 ^ l → bytesToNat (beBytes l m) = m := by
  intro l
  induction l with
  | zero => intro m hm; interval_cases m; rfl
  | succ l ih =>
    intro m hm
    have hmod : m % 256 ^ l < 256 ^ l := Nat.mod_lt _ (Nat.pos_pow_of_pos l (by omega))
    rw [beBytes, bytesToNat_cons, beBytes_length, ih _ hmod]
    have := Nat.div_add_mod m (256 ^ l)
    linarith

/-- `bigIntBytesAux` produces bytes. -/
theorem bigIntBytesAux_lt : ∀ (f m : Nat), ∀ b ∈ bigIntBytesAux f m, b < 256 := by
  intro f
  induction f with
  | zero => intro m b hb; simp [bigIntBytesAux] at hb
  | succ f ih =>
    intro m b hb
    simp only [bigIntBytesAux] at hb
    by_cases h : m = 0
    · simp [h] at hb
    · simp only [if_neg h, List.mem_append, List.mem_singleton] at hb
      rcases hb with h2 | h2
      · exact ih _ b h2
      · subst h2; exact Nat.mod_lt _ (by omega)

/-- `bigIntBytesAux` encodes the value it is given, with enough fuel. -/
theorem bytesToNat_bigIntBytesAux :
    ∀ (f m : Nat), m < 256 ^ f → bytesToNat (bigIntBytesAux f m) = m := by
  intro f
  induction f with
  | zero => intro m hm; interval_cases m; rfl
  | succ f ih =>
    intro m hm
    by_cases h : m = 0
    · simp [bigIntBytesAux, h, bytesToNat]
    · have hdiv : m / 256 < 256 ^ f := by
        rw [Nat.div_lt_iff_lt_mul (by omega)]
        calc m < 256 ^ (f + 1) := hm
        _ = 256 ^ f * 256 := by rw [pow_succ]
      rw [bigIntBytesAux, if_neg h]
      have happ : bytesToNat (bigIntBytesAux f (m / 256) ++ [m % 256]) =
          bytesToNat (bigIntBytesAux f (m / 256)) * 256 + m % 256 := by
        show List.foldl _ 0 _ = _
        rw [List.foldl_append, foldl_byte_acc [m % 256]]
        simp [bytesToNat]
      rw [happ, ih _ hdiv]
      have := Nat.div_add_mod m 256
      omega

/-- `bigIntBytesAux` length is bounded by the byte length of the bound. -/
theorem bigIntBytesAux_length :
    ∀ (f l m : Nat), m < 256 ^ l → (bigIntBytesAux f m).length ≤ l := by
  intro f
  induction f with
  | zero => intro l m _; simp [bigIntBytesAux]
  | succ f ih =>
    intro l m hm
    by_cases h : m = 0
    · simp [bigIntBytesAux, h]
    · cases l with
      | zero => simp at hm; omega
      | succ l =>
        have hdiv : m / 256 < 256 ^ l := by
          rw [Nat.div_lt_iff_lt_mul (by omega)]
          calc m < 256 ^ (l + 1) := hm
          _ = 256 ^ l * 256 := by rw [pow_succ]
        rw [bigIntBytesAux, if_neg h]
        simp only [List.length_append, List.length_singleton]
        have := ih l (m / 256) hdiv
        omega

/-- The padded `big.Int.Bytes` output is exactly the specification's
fixed-width big-endian encoding. -/
theorem pad_bigIntBytes_eq_beBytes (l m : Nat) (hm : m < 256 ^ l) :
    List.replicate (l - (bigIntBytes m).length) 0 ++ bigIntBytes m = beBytes l m := by
  have hfuel : m < 256 ^ m := Nat.lt_pow_self (by omega) m
  have hlen : (bigIntBytes m).length ≤ l := bigIntBytesAux_length m l m hm
  apply bytesToNat_injective
  · rw [List.length_append, List.length_replicate, beBytes_length]
    omega
  · intro b hb
    rcases List.mem_append.mp hb with h | h
    · rw [List.eq_of_mem_replicate h]; omega
    · exact bigIntBytesAux_lt m m b h
  · exact beBytes_lt l m hm
  · rw [bytesToNat_replicate_zero_append, bytesToNat_beBytes l m hm]
    exact bytesToNat_bigIntBytesAux m m hfuel

/-! ## base64url round trip -/

/-- Decoding inverts the alphabet map on six-bit values. -/
theorem b64Val_b64Char : ∀ v : Nat, v < 64 → b64Val (b64Char v) = some v := by decide

/-- No alphabet character is the dot separator. -/
theorem b64Char_ne_dot : ∀ v : Nat, v < 64 → b64Char v ≠ '.' := by decide

/-- Decoding inverts encoding on byte strings. -/
theorem decodeB64_encodeB64 :
    ∀ bs : List Nat, (∀ b ∈ bs, b < 256) → decodeB64 (encodeB64 bs) = some bs
  | [] => fun _ => rfl
  | [a] => by
    intro h
    have ha : a < 256 := h a (by simp)
    have e1 := b64Val_b64Char (a / 4) (by omega)
    have e2 := b64Val_b64Char (a % 4 * 16) (by omega)
    simp only [encodeB64, decodeB64, e1, e2, Option.some.injEq, List.cons.injEq, and_true]
    omega
  | [a, b] => by
    intro h
    have ha : a < 256 := h a (by simp)
    have hb : b < 256 := h b (by simp)
    have e1 := b64Val_b64Char (a / 4) (by omega)
    have e2 := b64Val_b64Char (a % 4 * 16 + b / 16) (by omega)
    have e3 := b64Val_b64Char (b % 16 * 4) (by omega)
    simp only [encodeB64, decodeB64, e1, e2, e3, Option.some.injEq, List.cons.injEq, and_true]
    omega
  | a :: b :: c :: rest => by
    intro h
    have ha : a < 256 := h a (by simp)
    have hb : b < 256 := h b (by simp)
    have hc : c < 256 := h c (by simp)
    have e1 := b64Val_b64Char (a / 4) (by omega)
    have e2 := b64Val_b64Char (a % 4 * 16 + b / 16) (by omega)
    have e3 := b64Val_b64Char (b % 16 * 4 + c / 64) (by omega)
    have e4 := b64Val_b64Char (c % 64) (by omega)
    have ih := decodeB64_encodeB64 rest (fun x hx => h x (by simp [hx]))
    show decodeB64
        (b64Char (a / 4) :: b64Char (a % 4 * 16 + b / 16) :: b64Char (b % 16 * 4 + c / 64) ::
          b64Char (c % 64) :: encodeB64 rest) = _
    rw [decodeB64, e1, e2, e3, e4, ih]
    simp only [Option.some.injEq, List.cons.injEq, and_true]
    omega

/-- Every character the encoder writes is off the dot separator. -/
theorem encodeB64_ne_dot :
    ∀ bs : List Nat, (∀ b ∈ bs, b < 256) → ∀ c ∈ encodeB64 bs, c ≠ '.'
  | [] => by intro _ c hc; simp [encodeB64] at hc
  | [a] => by
    intro h c hc
    have ha : a < 256 := h a (by simp)
    simp only [encodeB64, List.mem_cons, List.not_mem_nil, or_false] at hc
    rcases hc with h1 | h1 <;> (subst h1; exact b64Char_ne_dot _ (by omega))
  | [a, b] => by
    intro h c hc
    have ha : a < 256 := h a (by simp)
    have hb : b < 256 := h b (by simp)
    simp only [encodeB64, List.mem_cons, List.not_mem_nil, or_false] at hc
    rcases hc with h1 | h1 | h1 <;> (subst h1; exact b64Char_ne_dot _ (by omega))
  | a :: b :: c0 :: rest => by
    intro h c hc
    have ha : a < 256 := h a (by simp)
    have hb : b < 256 := h b (by simp)
    have hc0 : c0 < 256 := h c0 (by simp)
    have ih := encodeB64_ne_dot rest (fun x hx => h x (by simp [hx]))
    simp only [encodeB64, List.mem_cons] at hc
    rcases hc with h1 | h1 | h1 | h1 | h1
    · subst h1; exact b64Char_ne_dot _ (by omega)
    · subst h1; exact b64Char_ne_dot _ (by omega)
    · subst h1; exact b64Char_ne_dot _ (by omega)
    · subst h1; exact b64Char_ne_dot _ (by omega)
    · exact ih c h1

/-! ## Splitting the wire string on dots -/

/-- Splitting steps over a dot-free prefix. -/
theorem splitOnDot_append (xs ys : List Char) (h : ∀ c ∈ xs, c ≠ '.') :
    splitOnDot (xs ++ '.' :: ys) = xs :: splitOnDot ys := by
  induction xs with
  | nil => simp [splitOnDot]
  | cons c xs ih =>
    have hc : c ≠ '.' := h c (by simp)
    have ihh := ih (fun x hx => h x (by simp [hx]))
    simp only [List.cons_append, splitOnDot, if_neg hc, List.append_eq, ihh]

/-- A dot-free string is one segment. -/
theorem splitOnDot_no_dot (xs : List Char) (h : ∀ c ∈ xs, c ≠ '.') :
    splitOnDot xs = [xs] := by
  induction xs with
  | nil => rfl
  | cons c xs ih =>
    have hc : c ≠ '.' := h c (by simp)
    have ihh := ih (fun x hx => h x (by simp [hx]))
    simp [splitOnDot, if_neg hc, ihh]

/-! ## UTF-8 round trip -/

/-- Every scalar value is below `0x110000`. -/
theorem char_toNat_lt (c : Char) : c.toNat < 1114112 := by
  have h := c.valid
  rcases h with h | h
  · exact Nat.lt_trans (by exact_mod_cast h) (by norm_num)
  · exact_mod_cast h.2

/-- `utf8EncodeChar` writes at least one byte. -/
theorem utf8EncodeChar_ne_nil (c : Char) : utf8EncodeChar c ≠ [] := by
  simp only [utf8EncodeChar]
  split <;> try simp
  split <;> try simp
  split <;> simp

/-- Decoding one encoded character peels it off. -/
theorem utf8DecodeStep_encodeChar (c : Char) (bs : List Nat) :
    utf8DecodeStep (utf8EncodeChar c ++ bs) = some (c, bs) := by
  have hv := char_toNat_lt c
  have hofnat : Char.ofNat c.toNat = c := Char.ofNat_toNat c
  by_cases h1 : c.toNat < 128
  · simp only [utf8EncodeChar, if_pos h1, List.cons_append, List.nil_append, utf8DecodeStep,
      if_pos h1, hofnat]
  · by_cases h2 : c.toNat < 2048
    · have e1 : ¬(192 + c.toNat / 64 < 128) := by omega
      have e2 : ¬(192 + c.toNat / 64 < 192) := by omega
      have e3 : 192 + c.toNat / 64 < 224 := by omega
      have e4 : (128 ≤ 128 + c.toNat % 64 ∧ 128 + c.toNat % 64 < 192) := by omega
      have e5 : (192 + c.toNat / 64 - 192) * 64 + (128 + c.toNat % 64 - 128) = c.toNat := by
        omega
      simp only [utf8EncodeChar, if_neg h1, if_pos h2, List.cons_append, List.nil_append,
        utf8DecodeStep, if_neg e1, if_neg e2, if_pos e3, if_pos e4, e5, hofnat]
    · by_cases h3 : c.toNat < 65536
      · have e1 : ¬(224 + c.toNat / 4096 < 128) := by omega
        have e2 : ¬(224 + c.toNat / 4096 < 192) := by omega
        have e3 : ¬(224 + c.toNat / 4096 < 224) := by omega
        have e4 : 224 + c.toNat / 4096 < 240 := by omega
        have e5 : ((128 ≤ 128 + c.toNat / 64 % 64 ∧ 128 + c.toNat / 64 % 64 < 192) ∧
            (128 ≤ 128 + c.toNat % 64 ∧ 128 + c.toNat % 64 < 192)) := by omega
        have e6 : (224 + c.toNat / 4096 - 224) * 4096 + (128 + c.toNat / 64 % 64 - 128) * 64 +
            (128 + c.toNat % 64 - 128) = c.toNat := by omega
        simp only [utf8EncodeChar, if_neg h1, if_neg h2, if_pos h3, List.cons_append,
          List.nil_append, utf8DecodeStep, if_neg e1, if_neg e2, if_neg e3, if_pos e4,
          if_pos e5, e6, hofnat]
      · have e1 : ¬(240 + c.toNat / 262144 < 128) := by omega
        have e2 : ¬(240 + c.toNat / 262144 < 192) := by omega
        have e3 : ¬(240 + c.toNat / 262144 < 224) := by omega
        have e4 : ¬(240 + c.toNat / 262144 < 240) := by omega
        have e5 : 240 + c.toNat / 262144 < 248 := by omega
        have e6 : ((128 ≤ 128 + c.toNat / 4096 % 64 ∧ 128 + c.toNat / 4096 % 64 < 192) ∧
            (128 ≤ 128 + c.toNat / 64 % 64 ∧ 128 + c.toNat / 64 % 64 < 192) ∧
            (128 ≤ 128 + c.toNat % 64 ∧ 128 + c.toNat % 64 < 192)) := by omega
        have e7 : (240 + c.toNat / 262144 - 240) * 262144 +
            (128 + c.toNat / 4096 % 64 - 128) * 4096 + (128 + c.toNat / 64 % 64 - 128) * 64 +
            (128 + c.toNat % 64 - 128) = c.toNat := by omega
        simp only [utf8EncodeChar, if_neg h1, if_neg h2, if_neg h3, List.cons_append,
          List.nil_append, utf8DecodeStep, if_neg e1, if_neg e2, if_neg e3, if_neg e4,
          if_pos e5, if_pos e6, e7, hofnat]

/-- The decoding loop inverts encoding, given fuel beyond the character
count. -/
theorem utf8DecodeLoop_encode :
    ∀ (cs : List Char) (f : Nat), cs.length < f → utf8DecodeLoop f (utf8Encode cs) = some cs := by
  intro cs
  induction cs with
  | nil =>
    intro f hf
    cases f with
    | zero => omega
    | succ f => rfl
  | cons c cs ih =>
    intro f hf
    cases f with
    | zero => omega
    | succ f =>
      rw [utf8Encode]
      cases hE : utf8EncodeChar c ++ utf8Encode cs with
      | nil =>
        exact absurd (List.append_eq_nil.mp hE).1 (utf8EncodeChar_ne_nil c)
      | cons b rest =>
        rw [utf8DecodeLoop, ← hE, utf8DecodeStep_encodeChar c (utf8Encode cs)]
        show (utf8DecodeLoop f (utf8Encode cs)).map (fun cs2 => c :: cs2) = some (c :: cs)
        rw [ih f (by simpa using hf)]
        rfl

/-- Each character takes at least one encoded byte. -/
theorem utf8Encode_length_ge : ∀ cs : List Char, cs.length ≤ (utf8Encode cs).length := by
  intro cs
  induction cs with
  | nil => simp [utf8Encode]
  | cons c cs ih =>
    rw [utf8Encode, List.length_append, List.length_cons]
    have h1 : 1 ≤ (utf8EncodeChar c).length := by
      cases hE : utf8EncodeChar c with
      | nil => exact absurd hE (utf8EncodeChar_ne_nil c)
      | cons _ _ => simp
    omega

/-- UTF-8 decoding inverts encoding. -/
theorem utf8Decode_utf8Encode (cs : List Char) : utf8Decode (utf8Encode cs) = some cs := by
  have h := utf8Encode_length_ge cs
  exact utf8DecodeLoop_encode cs ((utf8Encode cs).length + 1) (by omega)

/-- One encoded character is made of bytes. -/
theorem utf8EncodeChar_lt_256 (c : Char) : ∀ b ∈ utf8EncodeChar c, b < 256 := by
  have hv := char_toNat_lt c
  intro b hb
  simp only [utf8EncodeChar] at hb
  by_cases h1 : c.toNat < 128
  · rw [if_pos h1] at hb
    simp only [List.mem_singleton] at hb
    omega
  · rw [if_neg h1] at hb
    by_cases h2 : c.toNat < 2048
    · rw [if_pos h2] at hb
      simp only [List.mem_cons, List.not_mem_nil, or_false] at hb
      rcases hb with h | h <;> omega
    · rw [if_neg h2] at hb
      by_cases h3 : c.toNat < 65536
      · rw [if_pos h3] at hb
        simp only [List.mem_cons, List.not_mem_nil, or_false] at hb
        rcases hb with h | h | h <;> omega
      · rw [if_neg h3] at hb
        simp only [List.mem_cons, List.not_mem_nil, or_false] at hb
        rcases hb with h | h | h | h <;> omega

/-- Encoded strings are made of bytes. -/
theorem utf8Encode_lt_256 : ∀ cs : List Char, ∀ b ∈ utf8Encode cs, b < 256 := by
  intro cs
  induction cs with
  | nil => intro b hb; simp [utf8Encode] at hb
  | cons c cs ih =>
    intro b hb
    rw [utf8Encode] at hb
    rcases List.mem_append.mp hb with h | h
    · exact utf8EncodeChar_lt_256 c b h
    · exact ih b h

/-! ## JSON string literal round trip -/

/-- `hexVal` inverts `hexDigitChar` on one hex digit. -/
theorem hexVal_hexDigitChar : ∀ d : Nat, d < 16 → hexVal (hexDigitChar d) = some d := by decide

/-- The four digits `00xx` denote a byte. -/
theorem parseHex4_00 (v : Nat) (hv : v < 256) :
    parseHex4 '0' '0' (hexDigitChar (v / 16)) (hexDigitChar (v % 16)) = some v := by
  have e1 := hexVal_hexDigitChar (v / 16) (by omega)
  have e2 := hexVal_hexDigitChar (v % 16) (by omega)
  have e0 : hexVal '0' = some 0 := by decide
  rw [parseHex4, e0, e1, e2]
  simp only [Option.some.injEq]
  omega

/-- `Char.ofNat` on a valid scalar value has that value. -/
theorem toNat_ofNat_valid (v : Nat) (h : v.isValidChar) : (Char.ofNat v).toNat = v := by
  rw [Char.ofNat, dif_pos h]
  simp only [Char.ofNatAux, Char.toNat, UInt32.toNat, BitVec.toNat_ofNatLt]

/-- Digit characters emitted by `natDigitsAux` are decimal digits. -/
theorem natDigitsAux_digits :
    ∀ (f m : Nat), ∀ c ∈ natDigitsAux f m, isDigitChar c = true := by
  intro f
  induction f with
  | zero => intro m c hc; simp [natDigitsAux] at hc
  | succ f ih =>
    intro m c hc
    rw [natDigitsAux] at hc
    by_cases h : m = 0
    · simp [h] at hc
    · rw [if_neg h] at hc
      rcases List.mem_append.mp hc with h2 | h2
      · exact ih _ c h2
      · simp only [List.mem_singleton] at h2
        subst h2
        have hlt : m % 10 < 10 := Nat.mod_lt _ (by omega)
        have := toNat_ofNat_valid (48 + m % 10) (Or.inl (by omega))
        simp only [isDigitChar, this, decide_eq_true_eq]
        omega

/-- A digit character is not whitespace, a minus sign or a quote. -/
theorem isDigitChar_props (c : Char) (h : isDigitChar c = true) :
    isJsonWs c = false ∧ c ≠ '-' ∧ c ≠ '"' := by
  refine ⟨?_, ?_, ?_⟩
  · simp only [isJsonWs, decide_eq_false_iff_not]
    intro hw
    rcases hw with hw | hw | hw | hw <;> (subst hw; exact absurd h (by decide))
  · intro hc; subst hc; exact absurd h (by decide)
  · intro hc; subst hc; exact absurd h (by decide)

/-- The decoder steps over the quote escape. -/
theorem parseEscape_quote (pv : List Char → Option (List Char × List Char)) (tl : List Char) :
    parseEscape pv ('"' :: tl) = (pv tl).map (fun p => ('"' :: p.1, p.2)) := rfl

/-- The decoder steps over the backslash escape. -/
theorem parseEscape_backslash (pv : List Char → Option (List Char × List Char))
    (tl : List Char) :
    parseEscape pv ('\\' :: tl) = (pv tl).map (fun p => ('\\' :: p.1, p.2)) := rfl

/-- The decoder steps over the newline escape. -/
theorem parseEscape_n (pv : List Char → Option (List Char × List Char)) (tl : List Char) :
    parseEscape pv ('n' :: tl) = (pv tl).map (fun p => ('\n' :: p.1, p.2)) := rfl

/-- The decoder steps over the carriage-return escape. -/
theorem parseEscape_r (pv : List Char → Option (List Char × List Char)) (tl : List Char) :
    parseEscape pv ('r' :: tl) = (pv tl).map (fun p => ('\r' :: p.1, p.2)) := rfl

/-- The decoder steps over the tab escape. -/
theorem parseEscape_t (pv : List Char → Option (List Char × List Char)) (tl : List Char) :
    parseEscape pv ('t' :: tl) = (pv tl).map (fun p => ('\t' :: p.1, p.2)) := rfl

/-- The decoder hands a `u` escape to `parseU`. -/
theorem parseEscape_u (pv : List Char → Option (List Char × List Char)) (a b c2 d : Char)
    (tl : List Char) :
    parseEscape pv ('u' :: a :: b :: c2 :: d :: tl) = parseU pv a b c2 d tl := rfl

/-- `parseU` on a non-surrogate value yields that scalar. -/
theorem parseU_scalar (pv : List Char → Option (List Char × List Char)) (a b c2 d : Char)
    (tl : List Char) (u : Nat) (hu : parseHex4 a b c2 d = some u)
    (hh : isHighSurrogate u = false) (hl : isLowSurrogate u = false) :
    parseU pv a b c2 d tl = (pv tl).map (fun p => (Char.ofNat u :: p.1, p.2)) := by
  simp only [parseU]
  rw [hu]
  simp only [hh, hl, Bool.false_eq_true, if_false]

/-- The string body parser accepts the closing quote. -/
theorem parseStringBody_quote (f : Nat) (tl : List Char) :
    parseStringBody (f + 1) ('"' :: tl) = some ([], tl) := rfl

/-- The string body parser hands a backslash to `parseEscape`. -/
theorem parseStringBody_backslash (f : Nat) (tl : List Char) :
    parseStringBody (f + 1) ('\\' :: tl) = parseEscape (parseStringBody f) tl := rfl

/-- The string body parser takes an ordinary character literally. -/
theorem parseStringBody_lit (f : Nat) (c : Char) (tl : List Char) (h1 : ¬c = '"')
    (h2 : ¬c = '\\') (h3 : ¬c.toNat < 32) :
    parseStringBody (f + 1) (c :: tl) =
      (parseStringBody f tl).map (fun p => (c :: p.1, p.2)) := by
  show (if c = '"' then some ([], tl)
    else if c = '\\' then parseEscape (parseStringBody f) tl
    else if c.toNat < 32 then none
    else (parseStringBody f tl).map (fun p => (c :: p.1, p.2))) = _
  rw [if_neg h1, if_neg h2, if_neg h3]

/-- Parsing a marshaled string body consumes it through the closing
quote and gives back the original characters. -/
theorem parseStringBody_marshal :
    ∀ (cs : List Char) (f : Nat) (rest : List Char), cs.length < f →
      parseStringBody f (marshalStringBody cs ++ '"' :: rest) = some (cs, rest) := by
  intro cs
  induction cs with
  | nil =>
    intro f rest hf
    cases f with
    | zero => omega
    | succ f => simp [marshalStringBody, parseStringBody_quote]
  | cons c cs ih =>
    intro f rest hf
    cases f with
    | zero => omega
    | succ f =>
      have IH := ih f rest (by simpa using hf)
      rw [marshalStringBody, List.append_assoc]
      by_cases h1 : c = '"'
      · subst h1
        rw [show escapeChar '"' = ['\\', '"'] from rfl]
        simp only [List.cons_append, List.nil_append, parseStringBody_backslash,
          parseEscape_quote, IH, Option.map_some']
      · by_cases h2 : c = '\\'
        · subst h2
          rw [show escapeChar '\\' = ['\\', '\\'] from rfl]
          simp only [List.cons_append, List.nil_append, parseStringBody_backslash,
            parseEscape_backslash, IH, Option.map_some']
        · by_cases h3 : c = '\n'
          · subst h3
            rw [show escapeChar '\n' = ['\\', 'n'] from rfl]
            simp only [List.cons_append, List.nil_append, parseStringBody_backslash,
              parseEscape_n, IH, Option.map_some']
          · by_cases h4 : c = '\r'
            · subst h4
              rw [show escapeChar '\r' = ['\\', 'r'] from rfl]
              simp only [List.cons_append, List.nil_append, parseStringBody_backslash,
                parseEscape_r, IH, Option.map_some']
            · by_cases h5 : c = '\t'
              · subst h5
                rw [show escapeChar '\t' = ['\\', 't'] from rfl]
                simp only [List.cons_append, List.nil_append, parseStringBody_backslash,
                  parseEscape_t, IH, Option.map_some']
              · by_cases h6 : c.toNat < 32 ∨ c = '<' ∨ c = '>' ∨ c = '&'
                · have hc256 : c.toNat < 256 := by
                    rcases h6 with h | h | h | h
                    · omega
                    all_goals (subst h; decide)
                  rw [escapeChar, if_neg h1, if_neg h2, if_neg h3, if_neg h4, if_neg h5,
                    if_pos h6]
                  simp only [List.cons_append, List.nil_append, parseStringBody_backslash,
                    parseEscape_u]
                  rw [parseU_scalar _ _ _ _ _ _ _ (parseHex4_00 c.toNat hc256)
                    (by simp only [isHighSurrogate, decide_eq_false_iff_not]; omega)
                    (by simp only [isLowSurrogate, decide_eq_false_iff_not]; omega)]
                  simp only [IH, Char.ofNat_toNat, Option.map_some']
                · by_cases h7 : c.toNat = 8232 ∨ c.toNat = 8233
                  · rw [escapeChar, if_neg h1, if_neg h2, if_neg h3, if_neg h4, if_neg h5,
                      if_neg h6, if_pos h7]
                    have hofnat := Char.ofNat_toNat c
                    rcases h7 with h7 | h7 <;> (rw [h7]; rw [h7] at hofnat)
                    · rw [show hexDigitChar (8232 % 16) = '8' from rfl]
                      simp only [List.cons_append, List.nil_append, parseStringBody_backslash,
                        parseEscape_u]
                      rw [parseU_scalar _ _ _ _ _ _ 8232 (by decide) (by decide) (by decide)]
                      simp only [IH, hofnat, Option.map_some']
                    · rw [show hexDigitChar (8233 % 16) = '9' from rfl]
                      simp only [List.cons_append, List.nil_append, parseStringBody_backslash,
                        parseEscape_u]
                      rw [parseU_scalar _ _ _ _ _ _ 8233 (by decide) (by decide) (by decide)]
                      simp only [IH, hofnat, Option.map_some']
                  · rw [escapeChar, if_neg h1, if_neg h2, if_neg h3, if_neg h4, if_neg h5,
                      if_neg h6, if_neg h7]
                    simp only [List.cons_append, List.nil_append]
                    rw [parseStringBody_lit f c _ h1 h2 (by omega), IH]
                    rfl

/-! ## JSON number round trip -/

/-- One step of `natDigitsAux` with positive fuel. -/
theorem natDigitsAux_succ (f m : Nat) :
    natDigitsAux (f + 1) m =
      if m = 0 then [] else natDigitsAux f (m / 10) ++ [Char.ofNat (48 + m % 10)] := rfl

/-- The digit scan stops at a non-digit boundary. -/
theorem parseDigitsAux_stop (acc : Nat) (rest : List Char)
    (h : ∀ c, rest.head? = some c → isDigitChar c = false) :
    parseDigitsAux acc rest = (acc, rest) := by
  cases rest with
  | nil => rfl
  | cons c cs =>
    have hc := h c rfl
    rw [parseDigitsAux, hc]
    simp

/-- The digit scan folds the emitted digits back into the value. -/
theorem parseDigitsAux_natDigitsAux :
    ∀ (f m acc : Nat) (rest : List Char), m < 10 ^ f →
      parseDigitsAux acc (natDigitsAux f m ++ rest) =
        parseDigitsAux (acc * 10 ^ (natDigitsAux f m).length + m) rest := by
  intro f
  induction f with
  | zero =>
    intro m acc rest hm
    interval_cases m
    simp [natDigitsAux]
  | succ f ih =>
    intro m acc rest hm
    by_cases h : m = 0
    · simp [natDigitsAux, h]
    · have hdiv : m / 10 < 10 ^ f := by
        rw [Nat.div_lt_iff_lt_mul (by omega)]
        calc m < 10 ^ (f + 1) := hm
        _ = 10 ^ f * 10 := by rw [pow_succ]
      have hdigit : isDigitChar (Char.ofNat (48 + m % 10)) = true := by
        have hv := toNat_ofNat_valid (48 + m % 10) (Or.inl (by omega))
        simp only [isDigitChar, hv, decide_eq_true_eq]
        omega
      have htoNat : (Char.ofNat (48 + m % 10)).toNat = 48 + m % 10 :=
        toNat_ofNat_valid _ (Or.inl (by omega))
      rw [natDigitsAux_succ, if_neg h, List.append_assoc, List.cons_append, List.nil_append,
        ih (m / 10) acc _ hdiv]
      rw [parseDigitsAux, hdigit]
      simp only [if_true, htoNat]
      rw [show (acc * 10 ^ (natDigitsAux f (m / 10)).length + m / 10) * 10 + (48 + m % 10 - 48)
          = acc * 10 ^ ((natDigitsAux f (m / 10)).length + 1) + m from by
        have hmod := Nat.div_add_mod m 10
        rw [pow_succ]
        have : 48 + m % 10 - 48 = m % 10 := by omega
        rw [this]
        nlinarith [hmod]]
      simp [List.length_append]

/-- The digit scan reads back `natDigits` at a non-digit boundary. -/
theorem parseDigitsAux_natDigits (m : Nat) (rest : List Char)
    (h : ∀ c, rest.head? = some c → isDigitChar c = false) :
    parseDigitsAux 0 (natDigits m ++ rest) = (m, rest) := by
  by_cases hm : m = 0
  · subst hm
    rw [natDigits, if_pos rfl]
    rw [List.cons_append, List.nil_append, parseDigitsAux,
      show isDigitChar '0' = true from rfl]
    simp only [if_true]
    rw [show (0 : Nat) * 10 + ('0'.toNat - 48) = 0 from by decide]
    exact parseDigitsAux_stop 0 rest h
  · rw [natDigits, if_neg hm,
      parseDigitsAux_natDigitsAux m m 0 rest (Nat.lt_pow_self (by omega) m)]
    rw [show 0 * 10 ^ (natDigitsAux m m).length + m = m from by omega]
    exact parseDigitsAux_stop m rest h

/-- Every character of `natDigits` is a digit. -/
theorem natDigits_digits (m : Nat) : ∀ c ∈ natDigits m, isDigitChar c = true := by
  intro c hc
  rw [natDigits] at hc
  by_cases hm : m = 0
  · rw [if_pos hm] at hc
    simp only [List.mem_singleton] at hc
    subst hc
    decide
  · rw [if_neg hm] at hc
    exact natDigitsAux_digits m m c hc

/-- `natDigits` is never empty. -/
theorem natDigits_ne_nil (m : Nat) : natDigits m ≠ [] := by
  rw [natDigits]
  by_cases hm : m = 0
  · simp [hm]
  · rw [if_neg hm]
    have : m < 10 ^ m := Nat.lt_pow_self (by omega) m
    cases hm2 : m with
    | zero => omega
    | succ f =>
      rw [show natDigitsAux (f + 1) (f + 1) =
          if f + 1 = 0 then [] else natDigitsAux f ((f + 1) / 10) ++
            [Char.ofNat (48 + (f + 1) % 10)] from rfl, if_neg (by omega)]
      simp

/-- Parsing a marshaled integer at a non-digit boundary gives it back. -/
theorem parseNumber_mIntChars (i : Int) (rest : List Char)
    (h : ∀ c, rest.head? = some c → isDigitChar c = false) :
    parseNumber (mIntChars i ++ rest) = some (.num i, rest) := by
  by_cases hneg : i < 0
  · rw [mIntChars, if_pos hneg, List.cons_append, parseNumber, if_pos rfl]
    cases hD : natDigits i.natAbs with
    | nil => exact absurd hD (natDigits_ne_nil _)
    | cons c tl =>
      have hdig : isDigitChar c = true := natDigits_digits i.natAbs c (by rw [hD]; simp)
      have hfold := parseDigitsAux_natDigits i.natAbs rest h
      rw [hD] at hfold
      rw [List.cons_append, parseNegNumber, if_pos hdig, ← List.cons_append, hfold]
      simp only [Option.some.injEq, Prod.mk.injEq, GoValue.num.injEq, and_true]
      omega
  · rw [mIntChars, if_neg hneg]
    cases hD : natDigits i.natAbs with
    | nil => exact absurd hD (natDigits_ne_nil _)
    | cons c tl =>
      have hdig : isDigitChar c = true := natDigits_digits i.natAbs c (by rw [hD]; simp)
      have hprops := isDigitChar_props c hdig
      have hfold := parseDigitsAux_natDigits i.natAbs rest h
      rw [hD] at hfold
      rw [List.cons_append, parseNumber, if_neg hprops.2.1, if_pos hdig, ← List.cons_append,
        hfold]
      simp only [Option.some.injEq, Prod.mk.injEq, GoValue.num.injEq, and_true]
      omega

/-! ## Parser step lemmas -/

/-- A boundary holds when the head is not a digit. -/
theorem numBoundary_cons (c : Char) (r : List Char) (h : isDigitChar c = false) :
    numBoundary (c :: r) := by
  intro c2 hc2
  simp only [List.head?_cons, Option.some.injEq] at hc2
  subst hc2
  exact h

/-- The empty remainder is a boundary. -/
theorem numBoundary_nil : numBoundary [] := by
  intro c hc
  simp at hc

/-- Skipping whitespace does nothing at a non-whitespace head. -/
theorem skipWs_cons_of_not (c : Char) (l : List Char) (h : isJsonWs c = false) :
    skipWs (c :: l) = c :: l := by
  show (if isJsonWs c then skipWs l else c :: l) = c :: l
  rw [h]
  simp

/-- One step of the value parser with positive fuel. -/
theorem parseValue_succ (f : Nat) (cs : List Char) :
    parseValue (f + 1) cs =
      match skipWs cs with
      | [] => none
      | c :: r => parseValueHead (parseValue f) c r := rfl

/-- One step of the value parser at a significant head character. -/
theorem parseValue_succ_cons (f : Nat) (c : Char) (r : List Char) (h : isJsonWs c = false) :
    parseValue (f + 1) (c :: r) = parseValueHead (parseValue f) c r := by
  rw [parseValue_succ, skipWs_cons_of_not c r h]

/-- The head dispatch at a quote starts a string literal. -/
theorem parseValueHead_quote (pv : List Char → Option (GoValue × List Char)) (r : List Char) :
    parseValueHead pv '"' r =
      (parseStringBody (r.length + 1) r).map (fun p => (GoValue.str (String.mk p.1), p.2)) :=
  rfl

/-- The head dispatch reads the `null` literal. -/
theorem parseValueHead_null (pv : List Char → Option (GoValue × List Char)) (r2 : List Char) :
    parseValueHead pv 'n' ('u' :: 'l' :: 'l' :: r2) = some (.null, r2) := rfl

/-- The head dispatch reads the `true` literal. -/
theorem parseValueHead_true (pv : List Char → Option (GoValue × List Char)) (r2 : List Char) :
    parseValueHead pv 't' ('r' :: 'u' :: 'e' :: r2) = some (.bool true, r2) := rfl

/-- The head dispatch reads the `false` literal. -/
theorem parseValueHead_false (pv : List Char → Option (GoValue × List Char)) (r2 : List Char) :
    parseValueHead pv 'f' ('a' :: 'l' :: 's' :: 'e' :: r2) = some (.bool false, r2) := rfl

/-- The head dispatch at an opening bracket starts an array. -/
theorem parseValueHead_bracket (pv : List Char → Option (GoValue × List Char))
    (r : List Char) :
    parseValueHead pv '[' r =
      match skipWs r with
      | [] => none
      | c2 :: r2 =>
        if c2 = ']' then some (.arr .nil, r2)
        else (parseElemsAux pv ((c2 :: r2).length + 1) (c2 :: r2)).map
          (fun p => (GoValue.arr p.1, p.2)) := rfl

/-- The head dispatch at an opening brace starts an object. -/
theorem parseValueHead_brace (pv : List Char → Option (GoValue × List Char)) (r : List Char) :
    parseValueHead pv lbrace r =
      match skipWs r with
      | [] => none
      | c2 :: r2 =>
        if c2 = rbrace then some (.obj .nil, r2)
        else (parseMembersAux pv ((c2 :: r2).length + 1) (c2 :: r2)).map
          (fun p => (GoValue.obj (pairsFoldInsert .nil p.1), p.2)) := rfl

/-- The head dispatch at a minus sign reads a number. -/
theorem parseValueHead_minus (pv : List Char → Option (GoValue × List Char)) (r : List Char) :
    parseValueHead pv '-' r = parseNumber ('-' :: r) := rfl

/-- The head dispatch at any other character reads a number. -/
theorem parseValueHead_other (pv : List Char → Option (GoValue × List Char)) (c : Char)
    (r : List Char) (h1 : ¬c = 'n') (h2 : ¬c = 't') (h3 : ¬c = 'f') (h4 : ¬c = '"')
    (h5 : ¬c = '[') (h6 : ¬c = lbrace) :
    parseValueHead pv c r = parseNumber (c :: r) := by
  simp only [parseValueHead]
  rw [if_neg h1, if_neg h2, if_neg h3, if_neg h4, if_neg h5, if_neg h6]

/-- A digit is none of the keyword, string, array or object openers. -/
theorem isDigitChar_not_opener (c : Char) (h : isDigitChar c = true) :
    ¬c = 'n' ∧ ¬c = 't' ∧ ¬c = 'f' ∧ ¬c = '"' ∧ ¬c = '[' ∧ ¬c = lbrace ∧ ¬c = ']' ∧
      ¬c = rbrace := by
  refine ⟨?_, ?_, ?_, ?_, ?_, ?_, ?_, ?_⟩ <;>
    (intro hc; subst hc; exact absurd h (by decide))

/-! ## Shapes of marshaled text -/

/-- An escape sequence is never empty. -/
theorem escapeChar_length_pos (c : Char) : 1 ≤ (escapeChar c).length := by
  rw [escapeChar]
  split_ifs <;> simp

/-- The escaped body is at least as long as the characters it spells. -/
theorem marshalStringBody_length_ge :
    ∀ cs : List Char, cs.length ≤ (marshalStringBody cs).length := by
  intro cs
  induction cs with
  | nil => simp [marshalStringBody]
  | cons c cs ih =>
    rw [marshalStringBody, List.length_append, List.length_cons]
    have := escapeChar_length_pos c
    omega

/-- A marshaled string element list is at least as long as its element
count. -/
theorem marshalStrElems_length_ge :
    ∀ xs : List String, xs.length ≤ (marshalStrElems xs).length := by
  intro xs
  induction xs with
  | nil => simp [marshalStrElems]
  | cons s tl ih =>
    cases tl with
    | nil => simp [marshalStrElems, marshalString]
    | cons s2 tl2 =>
      rw [marshalStrElems, List.length_append, List.length_cons]
      simp only [List.length_cons] at ih ⊢
      have : 1 ≤ (marshalString s).length := by simp [marshalString]
      omega
      simp

/-- Every value is at least one node. -/
theorem gvSize_pos : ∀ v : GoValue, 1 ≤ gvSize v := by
  intro v
  cases v <;> simp [gvSize]

mutual

/-- Marshaled text is at least as long as the node count. -/
theorem marshalValue_length_ge : ∀ w : GoValue, gvSize w ≤ (marshalValue w).length
  | .str s => by simp [marshalValue, marshalString, gvSize]
  | .num i => by
    have h : mIntChars i ≠ [] := by
      rw [mIntChars]
      split_ifs
      · simp
      · exact natDigits_ne_nil _
    rw [gvSize]
    cases hD : mIntChars i with
    | nil => exact absurd hD h
    | cons c tl => simp [marshalValue, hD]
  | .bool true => by simp [marshalValue, gvSize]
  | .bool false => by simp [marshalValue, gvSize]
  | .null => by simp [marshalValue, gvSize]
  | .strList xs => by simp [marshalValue, gvSize]
  | .arr xs => by
    have := marshalElems_length_ge xs
    simp only [marshalValue, gvSize, List.length_cons, List.length_append,
      List.length_singleton]
    omega
  | .obj kvs => by
    have := marshalMembers_length_ge kvs
    simp only [marshalValue, gvSize, List.length_cons, List.length_append,
      List.length_singleton]
    omega

/-- Marshaled elements are at least as long as their node count. -/
theorem marshalElems_length_ge : ∀ xs : GoValueList, glSize xs ≤ (marshalElems xs).length
  | .nil => by simp [marshalElems, glSize]
  | .cons v .nil => by
    have := marshalValue_length_ge v
    simp only [marshalElems, glSize]
    omega
  | .cons v (.cons w tl) => by
    have h1 := marshalValue_length_ge v
    have h2 := marshalElems_length_ge (.cons w tl)
    simp only [marshalElems, glSize, List.length_append, List.length_cons] at h2 ⊢
    omega

/-- Marshaled members are at least as long as their node count. -/
theorem marshalMembers_length_ge : ∀ ps : GoPairs, gpSize ps ≤ (marshalMembers ps).length
  | .nil => by simp [marshalMembers, gpSize]
  | .cons k v .nil => by
    have := marshalValue_length_ge v
    simp only [marshalMembers, gpSize, List.length_append, List.length_cons]
    omega
  | .cons k v (.cons k2 w tl) => by
    have h1 := marshalValue_length_ge v
    have h2 := marshalMembers_length_ge (.cons k2 w tl)
    simp only [marshalMembers, gpSize, List.length_append, List.length_cons] at h2 ⊢
    omega

end

/-- Marshaled text starts with a significant character that closes
nothing: not whitespace, not `]`, not the closing brace. -/
theorem marshalValue_head (v : GoValue) :
    ∃ c tl, marshalValue v = c :: tl ∧ isJsonWs c = false ∧ ¬c = ']' ∧ ¬c = rbrace := by
  cases v with
  | str s => exact ⟨'"', _, rfl, by decide, by decide, by decide⟩
  | num i =>
    rw [marshalValue]
    by_cases hneg : i < 0
    · rw [mIntChars, if_pos hneg]
      exact ⟨'-', _, rfl, by decide, by decide, by decide⟩
    · rw [mIntChars, if_neg hneg]
      cases hD : natDigits i.natAbs with
      | nil => exact absurd hD (natDigits_ne_nil _)
      | cons c tl =>
        have hdig : isDigitChar c = true := natDigits_digits i.natAbs c (by rw [hD]; simp)
        have hprops := isDigitChar_props c hdig
        have hop := isDigitChar_not_opener c hdig
        exact ⟨c, tl, rfl, hprops.1, hop.2.2.2.2.2.2.1, hop.2.2.2.2.2.2.2⟩
  | bool b =>
    cases b
    · refine ⟨'f', _, rfl, ?_, ?_, ?_⟩ <;> decide
    · refine ⟨'t', _, rfl, ?_, ?_, ?_⟩ <;> decide
  | null => exact ⟨'n', _, rfl, by decide, by decide, by decide⟩
  | strList xs => exact ⟨'[', _, rfl, by decide, by decide, by decide⟩
  | arr xs => exact ⟨'[', _, rfl, by decide, by decide, by decide⟩
  | obj kvs => exact ⟨lbrace, _, rfl, by decide, by decide, by decide⟩

/-! ## Array elements and object members round trip -/

/-- Rebuilding a string from its characters is the identity. -/
theorem string_mk_data (s : String) : String.mk s.data = s := rfl

/-- One step of the element loop when the value parser succeeds. -/
theorem parseElemsAux_succ_ok (pv : List Char → Option (GoValue × List Char)) (f : Nat)
    (cs : List Char) (v : GoValue) (r : List Char) (h : pv cs = some (v, r)) :
    parseElemsAux pv (f + 1) cs = elemsAfter (parseElemsAux pv f) v r := by
  rw [show parseElemsAux pv (f + 1) cs =
      match pv cs with
      | Option.none => none
      | some (v, r) => elemsAfter (parseElemsAux pv f) v r from rfl, h]

/-- The element loop ends at a closing bracket. -/
theorem elemsAfter_close (recurse : List Char → Option (GoValueList × List Char))
    (v : GoValue) (r2 : List Char) :
    elemsAfter recurse v (']' :: r2) = some (.cons v .nil, r2) := rfl

/-- The element loop continues past a comma. -/
theorem elemsAfter_comma (recurse : List Char → Option (GoValueList × List Char))
    (v : GoValue) (r2 : List Char) :
    elemsAfter recurse v (',' :: r2) =
      (recurse r2).map (fun p => (GoValueList.cons v p.1, p.2)) := rfl

/-- One step of the member loop at a quoted name. -/
theorem parseMembersAux_succ_quote (pv : List Char → Option (GoValue × List Char)) (f : Nat)
    (r : List Char) (k r2 : List Char) (h : parseStringBody (r.length + 1) r = some (k, r2)) :
    parseMembersAux pv (f + 1) ('"' :: r) = membersColon pv (parseMembersAux pv f) k r2 := by
  rw [show parseMembersAux pv (f + 1) ('"' :: r) =
      match parseStringBody (r.length + 1) r with
      | Option.none => none
      | some (k, r2) => membersColon pv (parseMembersAux pv f) k r2 from rfl, h]

/-- The member loop reads the colon and the member value. -/
theorem membersColon_step (pv : List Char → Option (GoValue × List Char))
    (recurse : List Char → Option (GoPairs × List Char)) (k : List Char) (r2 : List Char)
    (v : GoValue) (r3 : List Char) (h : pv r2 = some (v, r3)) :
    membersColon pv recurse k (':' :: r2) = membersAfter recurse (String.mk k) v r3 := by
  rw [show membersColon pv recurse k (':' :: r2) =
      match pv r2 with
      | Option.none => none
      | some (v, r3) => membersAfter recurse (String.mk k) v r3 from rfl, h]

/-- The member loop ends at a closing brace. -/
theorem membersAfter_close (recurse : List Char → Option (GoPairs × List Char)) (k : String)
    (v : GoValue) (r2 : List Char) :
    membersAfter recurse k v (rbrace :: r2) = some (.cons k v .nil, r2) := rfl

/-- The member loop continues past a comma. -/
theorem membersAfter_comma (recurse : List Char → Option (GoPairs × List Char)) (k : String)
    (v : GoValue) (r2 : List Char) :
    membersAfter recurse k v (',' :: r2) =
      (recurse r2).map (fun p => (GoPairs.cons k v p.1, p.2)) := rfl

/-- The element loop reads back a marshaled `[]string` body. -/
theorem parseElems_strList (pv : List Char → Option (GoValue × List Char)) :
    ∀ xs : List String, xs ≠ [] →
      (∀ s ∈ xs, ∀ r2 : List Char, numBoundary r2 →
        pv (marshalString s ++ r2) = some (.str s, r2)) →
      ∀ (g : Nat) (rest : List Char), xs.length < g →
        parseElemsAux pv g (marshalStrElems xs ++ ']' :: rest) =
          some (strListToArr xs, rest) := by
  intro xs
  induction xs with
  | nil => intro h; exact absurd rfl h
  | cons s tl ih =>
    intro _ hpv g rest hg
    cases g with
    | zero => simp at hg
    | succ g =>
      cases tl with
      | nil =>
        rw [show marshalStrElems [s] = marshalString s from rfl]
        rw [parseElemsAux_succ_ok pv g _ (.str s) (']' :: rest)
          (hpv s (by simp) _ (numBoundary_cons _ _ (by decide)))]
        rw [elemsAfter_close]
        rfl
      | cons s2 tl2 =>
        rw [show marshalStrElems (s :: s2 :: tl2) =
            marshalString s ++ ',' :: marshalStrElems (s2 :: tl2) from rfl,
          List.append_assoc, List.cons_append]
        rw [parseElemsAux_succ_ok pv g _ (.str s) _
          (hpv s (by simp) _ (numBoundary_cons _ _ (by decide)))]
        rw [elemsAfter_comma]
        rw [ih (by simp) (fun x hx => hpv x (by simp [hx])) g rest (by simpa using hg)]
        rfl

/-- The element loop reads back marshaled array elements. -/
theorem parseElems_marshal (pv : List Char → Option (GoValue × List Char)) :
    ∀ xs : GoValueList, xs ≠ .nil →
      (∀ x, glMem x xs → ∀ r2 : List Char, numBoundary r2 →
        pv (marshalValue x ++ r2) = some (stripV x, r2)) →
      ∀ (g : Nat) (rest : List Char), glSize xs < g →
        parseElemsAux pv g (marshalElems xs ++ ']' :: rest) = some (stripL xs, rest)
  | .nil => by intro h; exact absurd rfl h
  | .cons v .nil => by
    intro _ hpv g rest hg
    cases g with
    | zero => simp at hg
    | succ g =>
      rw [show marshalElems (.cons v .nil) = marshalValue v from rfl]
      rw [parseElemsAux_succ_ok pv g _ (stripV v) (']' :: rest)
        (hpv v (Or.inl rfl) _ (numBoundary_cons _ _ (by decide)))]
      rw [elemsAfter_close]
      rfl
  | .cons v (.cons w tl) => by
    intro _ hpv g rest hg
    cases g with
    | zero => simp at hg
    | succ g =>
      rw [show marshalElems (.cons v (.cons w tl)) =
          marshalValue v ++ ',' :: marshalElems (.cons w tl) from rfl,
        List.append_assoc, List.cons_append]
      rw [parseElemsAux_succ_ok pv g _ (stripV v) _
        (hpv v (Or.inl rfl) _ (numBoundary_cons _ _ (by decide)))]
      rw [elemsAfter_comma]
      have hsize : glSize (GoValueList.cons w tl) < g := by
        have := gvSize_pos v
        simp only [glSize] at hg ⊢
        omega
      rw [parseElems_marshal pv (.cons w tl) (by simp) (fun x hx => hpv x (Or.inr hx)) g rest
        hsize]
      rfl

/-- The member loop reads back marshaled object members. -/
theorem parseMembers_marshal (pv : List Char → Option (GoValue × List Char)) :
    ∀ ps : GoPairs, ps ≠ .nil →
      (∀ x, gpMemVal x ps → ∀ r2 : List Char, numBoundary r2 →
        pv (marshalValue x ++ r2) = some (stripV x, r2)) →
      ∀ (g : Nat) (rest : List Char), gpSize ps < g →
        parseMembersAux pv g (marshalMembers ps ++ rbrace :: rest) = some (stripP ps, rest)
  | .nil => by intro h; exact absurd rfl h
  | .cons k v .nil => by
    intro _ hpv g rest hg
    cases g with
    | zero => simp at hg
    | succ g =>
      rw [show marshalMembers (.cons k v .nil) = marshalString k ++ ':' :: marshalValue v
        from rfl]
      rw [show marshalString k = '"' :: marshalStringBody k.data ++ ['"'] from rfl]
      simp only [List.append_assoc, List.cons_append, List.nil_append]
      have hfold := parseStringBody_marshal k.data
        ((marshalStringBody k.data ++ '"' :: (':' :: (marshalValue v ++ rbrace :: rest))).length
          + 1)
        (':' :: (marshalValue v ++ rbrace :: rest))
        (by
          have := marshalStringBody_length_ge k.data
          simp only [List.length_append, List.length_cons]
          omega)
      rw [parseMembersAux_succ_quote pv g _ k.data _ hfold]
      rw [membersColon_step pv _ k.data _ (stripV v) (rbrace :: rest)
        (hpv v (Or.inl rfl) _ (numBoundary_cons _ _ (by decide)))]
      rw [string_mk_data, membersAfter_close]
      rfl
  | .cons k v (.cons k2 w tl) => by
    intro _ hpv g rest hg
    cases g with
    | zero => simp at hg
    | succ g =>
      rw [show marshalMembers (.cons k v (.cons k2 w tl)) =
          marshalString k ++ ':' :: marshalValue v ++ ',' :: marshalMembers (.cons k2 w tl)
        from rfl]
      rw [show marshalString k = '"' :: marshalStringBody k.data ++ ['"'] from rfl]
      simp only [List.append_assoc, List.cons_append, List.nil_append]
      have hfold := parseStringBody_marshal k.data
        ((marshalStringBody k.data ++ '"' ::
          (':' :: (marshalValue v ++ ',' :: (marshalMembers (.cons k2 w tl) ++
            rbrace :: rest)))).length + 1)
        (':' :: (marshalValue v ++ ',' :: (marshalMembers (.cons k2 w tl) ++ rbrace :: rest)))
        (by
          have := marshalStringBody_length_ge k.data
          simp only [List.length_append, List.length_cons]
          omega)
      rw [parseMembersAux_succ_quote pv g _ k.data _ hfold]
      rw [membersColon_step pv _ k.data _ (stripV v)
        (',' :: (marshalMembers (.cons k2 w tl) ++ rbrace :: rest))
        (hpv v (Or.inl rfl) _ (numBoundary_cons _ _ (by decide)))]
      rw [string_mk_data, membersAfter_comma]
      have hsize : gpSize (GoPairs.cons k2 w tl) < g := by
        have := gvSize_pos v
        simp only [gpSize] at hg ⊢
        omega
      rw [parseMembers_marshal pv (.cons k2 w tl) (by simp) (fun x hx => hpv x (Or.inr hx))
        g rest hsize]
      rfl

/-! ## Toward the value round trip -/

/-- A marshaled string parses as a string value. -/
theorem parseValue_marshalString (s : String) (f : Nat) (rest : List Char) (hf : 1 ≤ f) :
    parseValue f (marshalString s ++ rest) = some (.str s, rest) := by
  cases f with
  | zero => omega
  | succ f =>
    rw [show marshalString s = '"' :: marshalStringBody s.data ++ ['"'] from rfl]
    simp only [List.cons_append, List.append_assoc, List.singleton_append, List.nil_append]
    rw [parseValue_succ_cons f '"' _ (by decide), parseValueHead_quote]
    rw [parseStringBody_marshal s.data _ rest
      (by
        have := marshalStringBody_length_ge s.data
        simp only [List.length_append, List.length_cons]
        omega)]
    rw [Option.map_some']

/-- An element is no bigger than its list. -/
theorem glMem_size : ∀ (xs : GoValueList) (x : GoValue), glMem x xs → gvSize x ≤ glSize xs
  | .nil, x => by intro h; exact absurd h (by simp [glMem])
  | .cons v tl, x => by
    intro h
    rcases h with h | h
    · subst h; simp only [glSize]; omega
    · have := glMem_size tl x h
      simp only [glSize]
      omega

/-- A member value is no bigger than its pair list. -/
theorem gpMemVal_size : ∀ (ps : GoPairs) (x : GoValue), gpMemVal x ps → gvSize x ≤ gpSize ps
  | .nil, x => by intro h; exact absurd h (by simp [gpMemVal])
  | .cons k v tl, x => by
    intro h
    rcases h with h | h
    · subst h; simp only [gpSize]; omega
    · have := gpMemVal_size tl x h
      simp only [gpSize]
      omega

/-- Marshaled string elements of a non-empty list start with a quote. -/
theorem marshalStrElems_cons_shape (s : String) (tl : List String) :
    ∃ y, marshalStrElems (s :: tl) = '"' :: y := by
  cases tl with
  | nil => exact ⟨_, rfl⟩
  | cons s2 tl2 =>
    refine ⟨marshalStringBody s.data ++ ['"'] ++ ',' :: marshalStrElems (s2 :: tl2), ?_⟩
    rw [show marshalStrElems (s :: s2 :: tl2) =
        marshalString s ++ ',' :: marshalStrElems (s2 :: tl2) from rfl]
    rw [show marshalString s = '"' :: marshalStringBody s.data ++ ['"'] from rfl]
    simp [List.cons_append, List.append_assoc]

/-- Marshaled elements of a non-empty array start with the first
element's text. -/
theorem marshalElems_cons_shape (v : GoValue) (tl : GoValueList) :
    ∃ y, marshalElems (.cons v tl) = marshalValue v ++ y := by
  cases tl with
  | nil => exact ⟨[], by simp [marshalElems]⟩
  | cons w tl2 => exact ⟨',' :: marshalElems (.cons w tl2), rfl⟩

/-- Marshaled members of a non-empty object start with a quote. -/
theorem marshalMembers_cons_shape (k : String) (v : GoValue) (tl : GoPairs) :
    ∃ y, marshalMembers (.cons k v tl) = '"' :: y := by
  cases tl with
  | nil =>
    refine ⟨marshalStringBody k.data ++ ['"'] ++ ':' :: marshalValue v, ?_⟩
    rw [show marshalMembers (.cons k v .nil) = marshalString k ++ ':' :: marshalValue v
      from rfl]
    rw [show marshalString k = '"' :: marshalStringBody k.data ++ ['"'] from rfl]
    simp [List.cons_append, List.append_assoc]
  | cons k2 w tl2 =>
    refine ⟨marshalStringBody k.data ++ ['"'] ++ ':' :: marshalValue v ++
      ',' :: marshalMembers (.cons k2 w tl2), ?_⟩
    rw [show marshalMembers (.cons k v (.cons k2 w tl2)) =
        marshalString k ++ ':' :: marshalValue v ++ ',' :: marshalMembers (.cons k2 w tl2)
      from rfl]
    rw [show marshalString k = '"' :: marshalStringBody k.data ++ ['"'] from rfl]
    simp [List.cons_append, List.append_assoc]

/-! ## Folding parsed members into a map -/

/-- Appending nothing on the right. -/
theorem gpAppend_nil_right : ∀ ps : GoPairs, gpAppend ps .nil = ps
  | .nil => rfl
  | .cons k v tl => by rw [gpAppend, gpAppend_nil_right tl]

/-- Appending is associative. -/
theorem gpAppend_assoc : ∀ a b c : GoPairs, gpAppend (gpAppend a b) c = gpAppend a (gpAppend b c)
  | .nil, _, _ => rfl
  | .cons k v tl, b, c => by rw [gpAppend, gpAppend, gpAppend, gpAppend_assoc tl b c]

/-- Keys of an append. -/
theorem gpKeys_gpAppend : ∀ a b : GoPairs, gpKeys (gpAppend a b) = gpKeys a ++ gpKeys b
  | .nil, _ => rfl
  | .cons k v tl, b => by rw [gpAppend, gpKeys, gpKeys, gpKeys_gpAppend tl b, List.cons_append]

/-- Inserting a fresh key appends the pair at the end. -/
theorem pairsInsert_fresh :
    ∀ (acc : GoPairs) (k : String) (v : GoValue), k ∉ gpKeys acc →
      pairsInsert k v acc = gpAppend acc (.cons k v .nil)
  | .nil, _, _ => by intro _; rfl
  | .cons k2 v2 tl, k, v => by
    intro h
    simp only [gpKeys, List.mem_cons, not_or] at h
    rw [pairsInsert, if_neg (fun he => h.1 he.symm), gpAppend,
      pairsInsert_fresh tl k v h.2]

/-- Folding map insertion over fresh, mutually distinct keys appends the
pairs in order. -/
theorem pairsFoldInsert_append :
    ∀ (ps acc : GoPairs), (gpKeys ps).Nodup → (∀ k ∈ gpKeys ps, k ∉ gpKeys acc) →
      pairsFoldInsert acc ps = gpAppend acc ps
  | .nil, acc => by intro _ _; rw [pairsFoldInsert, gpAppend_nil_right]
  | .cons k v tl, acc => by
    intro hnd hfresh
    simp only [gpKeys, List.nodup_cons] at hnd
    have hkfresh : k ∉ gpKeys acc := hfresh k (by simp [gpKeys])
    rw [pairsFoldInsert, pairsFoldInsert_append tl (pairsInsert k v acc) hnd.2
      (by
        intro k2 hk2
        rw [pairsInsert_fresh acc k v hkfresh, gpKeys_gpAppend]
        simp only [List.mem_append, gpKeys, List.mem_singleton, not_or]
        refine ⟨hfresh k2 (by simp [gpKeys, hk2]), ?_⟩
        intro he
        subst he
        exact hnd.1 hk2)]
    rw [pairsInsert_fresh acc k v hkfresh, gpAppend_assoc]
    rfl

/-- Folding map insertion over a duplicate-free pair list rebuilds the
same list. -/
theorem pairsFoldInsert_id (ps : GoPairs) (hnd : (gpKeys ps).Nodup) :
    pairsFoldInsert .nil ps = ps := by
  rw [pairsFoldInsert_append ps .nil hnd (by intro k _; simp [gpKeys])]
  rfl

/-- `stripP` preserves keys. -/
theorem gpKeys_stripP : ∀ ps : GoPairs, gpKeys (stripP ps) = gpKeys ps
  | .nil => rfl
  | .cons k v tl => by rw [stripP, gpKeys, gpKeys, gpKeys_stripP tl]

/-- Array dispatch at an immediate closing bracket. -/
theorem parseValueHead_bracket_close (pv : List Char → Option (GoValue × List Char))
    (r r2 : List Char) (hskip : skipWs r = ']' :: r2) :
    parseValueHead pv '[' r = some (.arr .nil, r2) := by
  rw [parseValueHead_bracket, hskip]
  rfl

/-- Array dispatch at a first element. -/
theorem parseValueHead_bracket_cons (pv : List Char → Option (GoValue × List Char))
    (c2 : Char) (r r2 : List Char) (hskip : skipWs r = c2 :: r2) (hne : ¬c2 = ']') :
    parseValueHead pv '[' r =
      (parseElemsAux pv ((c2 :: r2).length + 1) (c2 :: r2)).map
        (fun p => (GoValue.arr p.1, p.2)) := by
  rw [parseValueHead_bracket, hskip]
  show (if c2 = ']' then some (.arr .nil, r2)
    else (parseElemsAux pv ((c2 :: r2).length + 1) (c2 :: r2)).map
      (fun p => (GoValue.arr p.1, p.2))) = _
  rw [if_neg hne]

/-- Object dispatch at an immediate closing brace. -/
theorem parseValueHead_brace_close (pv : List Char → Option (GoValue × List Char))
    (r r2 : List Char) (hskip : skipWs r = rbrace :: r2) :
    parseValueHead pv lbrace r = some (.obj .nil, r2) := by
  rw [parseValueHead_brace, hskip]
  show (if rbrace = rbrace then some (.obj .nil, r2)
    else (parseMembersAux pv ((rbrace :: r2).length + 1) (rbrace :: r2)).map
      (fun p => (GoValue.obj (pairsFoldInsert .nil p.1), p.2))) = _
  rw [if_pos rfl]

/-- Object dispatch at a first member. -/
theorem parseValueHead_brace_cons (pv : List Char → Option (GoValue × List Char))
    (c2 : Char) (r r2 : List Char) (hskip : skipWs r = c2 :: r2) (hne : ¬c2 = rbrace) :
    parseValueHead pv lbrace r =
      (parseMembersAux pv ((c2 :: r2).length + 1) (c2 :: r2)).map
        (fun p => (GoValue.obj (pairsFoldInsert .nil p.1), p.2)) := by
  rw [parseValueHead_brace, hskip]
  show (if c2 = rbrace then some (.obj .nil, r2)
    else (parseMembersAux pv ((c2 :: r2).length + 1) (c2 :: r2)).map
      (fun p => (GoValue.obj (pairsFoldInsert .nil p.1), p.2))) = _
  rw [if_neg hne]

mutual

/-- The JSON parser reads marshaled text back as the stripped value: the
core completeness statement of the round trip. -/
theorem parseValue_marshal :
    ∀ w : GoValue, GoValue.WF w → ∀ (f : Nat) (rest : List Char), gvSize w ≤ f →
      numBoundary rest → parseValue f (marshalValue w ++ rest) = some (stripV w, rest)
  | .str s => by
    intro _ f rest hf _
    exact parseValue_marshalString s f rest (by simp only [gvSize] at hf; omega)
  | .num i => by
    intro _ f rest hf hrest
    cases f with
    | zero => simp [gvSize] at hf
    | succ f =>
      by_cases hneg : i < 0
      · have hm : mIntChars i = '-' :: natDigits i.natAbs := by rw [mIntChars, if_pos hneg]
        rw [show marshalValue (.num i) = mIntChars i from rfl, hm, List.cons_append,
          parseValue_succ_cons f '-' _ (by decide), parseValueHead_minus, ← List.cons_append,
          ← hm, parseNumber_mIntChars i rest hrest]
        rfl
      · have hm : mIntChars i = natDigits i.natAbs := by rw [mIntChars, if_neg hneg]
        cases hD : natDigits i.natAbs with
        | nil => exact absurd hD (natDigits_ne_nil _)
        | cons c tl =>
          have hdig : isDigitChar c = true := natDigits_digits i.natAbs c (by rw [hD]; simp)
          have hprops := isDigitChar_props c hdig
          have hop := isDigitChar_not_opener c hdig
          rw [show marshalValue (.num i) = mIntChars i from rfl, hm, hD, List.cons_append,
            parseValue_succ_cons f c _ hprops.1,
            parseValueHead_other _ c _ hop.1 hop.2.1 hop.2.2.1 hop.2.2.2.1 hop.2.2.2.2.1
              hop.2.2.2.2.2.1,
            ← List.cons_append, ← hD, ← hm, parseNumber_mIntChars i rest hrest]
          rfl
  | .bool true => by
    intro _ f rest hf _
    cases f with
    | zero => simp [gvSize] at hf
    | succ f =>
      rw [show marshalValue (.bool true) ++ rest = 't' :: 'r' :: 'u' :: 'e' :: rest from rfl,
        parseValue_succ_cons f 't' _ (by decide), parseValueHead_true]
      rfl
  | .bool false => by
    intro _ f rest hf _
    cases f with
    | zero => simp [gvSize] at hf
    | succ f =>
      rw [show marshalValue (.bool false) ++ rest =
          'f' :: 'a' :: 'l' :: 's' :: 'e' :: rest from rfl,
        parseValue_succ_cons f 'f' _ (by decide), parseValueHead_false]
      rfl
  | .null => by
    intro _ f rest hf _
    cases f with
    | zero => simp [gvSize] at hf
    | succ f =>
      rw [show marshalValue .null ++ rest = 'n' :: 'u' :: 'l' :: 'l' :: rest from rfl,
        parseValue_succ_cons f 'n' _ (by decide), parseValueHead_null]
      rfl
  | .strList xs => by
    intro _ f rest hf _
    cases f with
    | zero => simp [gvSize] at hf
    | succ f =>
      have hf1 : 1 ≤ f := by simp only [gvSize] at hf; omega
      rw [show marshalValue (.strList xs) = '[' :: marshalStrElems xs ++ [']'] from rfl]
      simp only [List.cons_append, List.append_assoc, List.singleton_append, List.nil_append]
      rw [parseValue_succ_cons f '[' _ (by decide)]
      cases xs with
      | nil =>
        rw [show marshalStrElems ([] : List String) = [] from rfl, List.nil_append]
        rw [parseValueHead_bracket_close _ _ rest (skipWs_cons_of_not ']' rest (by decide))]
        rfl
      | cons s tl =>
        obtain ⟨y, hy⟩ := marshalStrElems_cons_shape s tl
        have hr : marshalStrElems (s :: tl) ++ ']' :: rest = '"' :: (y ++ ']' :: rest) := by
          rw [hy, List.cons_append]
        rw [hr, parseValueHead_bracket_cons _ '"' _ _
          (skipWs_cons_of_not '"' _ (by decide)) (by decide), ← hr]
        rw [parseElems_strList _ (s :: tl) (by simp)
          (fun s2 _ r2 _ => parseValue_marshalString s2 f r2 hf1) _ rest
          (by
            have h1 := marshalStrElems_length_ge (s :: tl)
            simp only [List.length_cons, List.length_append] at h1 ⊢
            omega)]
        rfl
  | .arr .nil => by
    intro _ f rest hf _
    cases f with
    | zero => simp [gvSize] at hf
    | succ f =>
      rw [show marshalValue (.arr .nil) ++ rest = '[' :: (']' :: rest) from rfl,
        parseValue_succ_cons f '[' _ (by decide),
        parseValueHead_bracket_close _ _ rest (skipWs_cons_of_not ']' rest (by decide))]
      rfl
  | .arr (.cons v tl) => by
    intro hwf f rest hf _
    have hwfl : GoValueList.WF (.cons v tl) := by cases hwf with | arr h => exact h
    cases f with
    | zero => simp [gvSize] at hf
    | succ f =>
      have hfl : glSize (GoValueList.cons v tl) ≤ f := by
        simp only [gvSize] at hf
        omega
      rw [show marshalValue (.arr (.cons v tl)) =
          '[' :: marshalElems (.cons v tl) ++ [']'] from rfl]
      simp only [List.cons_append, List.append_assoc, List.singleton_append, List.nil_append]
      rw [parseValue_succ_cons f '[' _ (by decide)]
      obtain ⟨y, hy⟩ := marshalElems_cons_shape v tl
      obtain ⟨c, tl2, hc, hcws, hcne, _⟩ := marshalValue_head v
      have hr : marshalElems (.cons v tl) ++ ']' :: rest =
          c :: (tl2 ++ (y ++ ']' :: rest)) := by
        rw [hy, hc]
        simp [List.cons_append, List.append_assoc]
      rw [hr, parseValueHead_bracket_cons _ c _ _ (skipWs_cons_of_not c _ hcws) hcne, ← hr]
      rw [parseElems_marshal _ (.cons v tl) (by simp)
        (fun x hx r2 hb2 =>
          parseValue_marshal_list (.cons v tl) hwfl x hx f r2
            (le_trans (glMem_size _ x hx) hfl) hb2)
        _ rest
        (by
          have h1 := marshalElems_length_ge (GoValueList.cons v tl)
          simp only [List.length_append, List.length_cons]
          omega)]
      rfl
  | .obj .nil => by
    intro _ f rest hf _
    cases f with
    | zero => simp [gvSize] at hf
    | succ f =>
      rw [show marshalValue (.obj .nil) ++ rest = lbrace :: (rbrace :: rest) from rfl,
        parseValue_succ_cons f lbrace _ (by decide),
        parseValueHead_brace_close _ _ rest (skipWs_cons_of_not rbrace rest (by decide))]
      rfl
  | .obj (.cons k v tl) => by
    intro hwf f rest hf _
    have hnd : (gpKeys (GoPairs.cons k v tl)).Nodup := by
      cases hwf with | obj h1 h2 => exact h1
    have hwfp : GoPairs.WF (.cons k v tl) := by cases hwf with | obj h1 h2 => exact h2
    cases f with
    | zero => simp [gvSize] at hf
    | succ f =>
      have hfp : gpSize (GoPairs.cons k v tl) ≤ f := by
        simp only [gvSize] at hf
        omega
      rw [show marshalValue (.obj (.cons k v tl)) =
          lbrace :: marshalMembers (.cons k v tl) ++ [rbrace] from rfl]
      simp only [List.cons_append, List.append_assoc, List.singleton_append, List.nil_append]
      rw [parseValue_succ_cons f lbrace _ (by decide)]
      obtain ⟨y, hy⟩ := marshalMembers_cons_shape k v tl
      have hr : marshalMembers (.cons k v tl) ++ rbrace :: rest =
          '"' :: (y ++ rbrace :: rest) := by
        rw [hy, List.cons_append]
      rw [hr, parseValueHead_brace_cons _ '"' _ _
        (skipWs_cons_of_not '"' _ (by decide)) (by decide), ← hr]
      rw [parseMembers_marshal _ (.cons k v tl) (by simp)
        (fun x hx r2 hb2 =>
          parseValue_marshal_pairs (.cons k v tl) hwfp x hx f r2
            (le_trans (gpMemVal_size _ x hx) hfp) hb2)
        _ rest
        (by
          have h1 := marshalMembers_length_ge (GoPairs.cons k v tl)
          simp only [List.length_append, List.length_cons]
          omega)]
      rw [Option.map_some']
      rw [show (stripP (GoPairs.cons k v tl), rest).1 = stripP (GoPairs.cons k v tl) from rfl]
      rw [pairsFoldInsert_id _ (by rw [gpKeys_stripP]; exact hnd)]
      rfl

/-- Every element of a well-formed list round-trips. -/
theorem parseValue_marshal_list :
    ∀ xs : GoValueList, GoValueList.WF xs → ∀ x, glMem x xs →
      ∀ (f : Nat) (rest : List Char), gvSize x ≤ f → numBoundary rest →
        parseValue f (marshalValue x ++ rest) = some (stripV x, rest)
  | .nil => by
    intro _ x hx
    exact absurd hx (by simp [glMem])
  | .cons v tl => by
    intro hwf x hx f rest hf hrest
    cases hwf with
    | cons hv htl =>
      rcases hx with hx | hx
      · subst hx
        exact parseValue_marshal x hv f rest hf hrest
      · exact parseValue_marshal_list tl htl x hx f rest hf hrest

/-- Every member value of a well-formed pair list round-trips. -/
theorem parseValue_marshal_pairs :
    ∀ ps : GoPairs, GoPairs.WF ps → ∀ x, gpMemVal x ps →
      ∀ (f : Nat) (rest : List Char), gvSize x ≤ f → numBoundary rest →
        parseValue f (marshalValue x ++ rest) = some (stripV x, rest)
  | .nil => by
    intro _ x hx
    exact absurd hx (by simp [gpMemVal])
  | .cons k v tl => by
    intro hwf x hx f rest hf hrest
    cases hwf with
    | cons hv htl =>
      rcases hx with hx | hx
      · subst hx
        exact parseValue_marshal x hv f rest hf hrest
      · exact parseValue_marshal_pairs tl htl x hx f rest hf hrest

end

/-! ## Sorting preserves well-formedness, sizes and lookups -/

/-- Keys after a sorted insertion are the old keys plus the new one. -/
theorem gpKeys_insertPair_perm :
    ∀ (ps : GoPairs) (k : String) (v : GoValue),
      (gpKeys (insertPair k v ps)).Perm (k :: gpKeys ps)
  | .nil, k, v => by simp [insertPair, gpKeys]
  | .cons k2 v2 tl, k, v => by
    rw [insertPair]
    by_cases h : k2 < k
    · rw [if_pos h]
      simp only [gpKeys]
      exact List.Perm.trans ((gpKeys_insertPair_perm tl k v).cons k2)
        (List.Perm.swap k k2 (gpKeys tl))
    · rw [if_neg h]
      exact List.Perm.refl _

/-- Sorting permutes the keys. -/
theorem gpKeys_sortPairs_perm :
    ∀ ps : GoPairs, (gpKeys (sortPairs ps)).Perm (gpKeys ps)
  | .nil => List.Perm.refl _
  | .cons k v tl => by
    rw [sortPairs]
    refine List.Perm.trans (gpKeys_insertPair_perm _ k v) ?_
    simp only [gpKeys]
    exact (gpKeys_sortPairs_perm tl).cons k

/-- A sorted insertion keeps every value well.formed. -/
theorem insertPair_WF :
    ∀ (ps : GoPairs) (k : String) (v : GoValue), GoValue.WF v → GoPairs.WF ps →
      GoPairs.WF (insertPair k v ps)
  | .nil, k, v => by
    intro hv _
    exact GoPairs.WF.cons hv GoPairs.WF.nil
  | .cons k2 v2 tl, k, v => by
    intro hv hps
    cases hps with
    | cons hv2 htl =>
      rw [insertPair]
      by_cases h : k2 < k
      · rw [if_pos h]
        exact GoPairs.WF.cons hv2 (insertPair_WF tl k v hv htl)
      · rw [if_neg h]
        exact GoPairs.WF.cons hv (GoPairs.WF.cons hv2 htl)

/-- Sorting keeps every value well-formed. -/
theorem sortPairs_WF : ∀ ps : GoPairs, GoPairs.WF ps → GoPairs.WF (sortPairs ps)
  | .nil => fun _ => GoPairs.WF.nil
  | .cons k v tl => by
    intro hps
    cases hps with
    | cons hv htl => exact insertPair_WF _ k v hv (sortPairs_WF tl htl)

/-- `sortDeepP` preserves keys. -/
theorem gpKeys_sortDeepP : ∀ ps : GoPairs, gpKeys (sortDeepP ps) = gpKeys ps
  | .nil => rfl
  | .cons k v tl => by rw [sortDeepP, gpKeys, gpKeys, gpKeys_sortDeepP tl]

mutual

/-- Deep sorting preserves well-formedness. -/
theorem sortDeepV_WF : ∀ v : GoValue, GoValue.WF v → GoValue.WF (sortDeepV v)
  | .str s => fun _ => GoValue.WF.str s
  | .num i => fun _ => GoValue.WF.num i
  | .bool b => fun _ => GoValue.WF.bool b
  | .null => fun _ => GoValue.WF.null
  | .strList xs => fun _ => GoValue.WF.strList xs
  | .arr xs => by
    intro h
    cases h with
    | arr hxs => exact GoValue.WF.arr (sortDeepL_WF xs hxs)
  | .obj kvs => by
    intro h
    cases h with
    | obj hnd hkvs =>
      refine GoValue.WF.obj ?_ (sortPairs_WF _ (sortDeepP_WF kvs hkvs))
      refine ((gpKeys_sortPairs_perm _).trans ?_).nodup_iff.mpr hnd
      rw [gpKeys_sortDeepP]

/-- Deep sorting preserves well-formedness of elements. -/
theorem sortDeepL_WF : ∀ xs : GoValueList, GoValueList.WF xs → GoValueList.WF (sortDeepL xs)
  | .nil => fun _ => GoValueList.WF.nil
  | .cons v tl => by
    intro h
    cases h with
    | cons hv htl => exact GoValueList.WF.cons (sortDeepV_WF v hv) (sortDeepL_WF tl htl)

/-- Deep sorting preserves well-formedness of member values. -/
theorem sortDeepP_WF : ∀ ps : GoPairs, GoPairs.WF ps → GoPairs.WF (sortDeepP ps)
  | .nil => fun _ => GoPairs.WF.nil
  | .cons k v tl => by
    intro h
    cases h with
    | cons hv htl => exact GoPairs.WF.cons (sortDeepV_WF v hv) (sortDeepP_WF tl htl)

end

/-- A sorted insertion preserves the node count. -/
theorem gpSize_insertPair :
    ∀ (ps : GoPairs) (k : String) (v : GoValue),
      gpSize (insertPair k v ps) = gvSize v + gpSize ps
  | .nil, k, v => by simp [insertPair, gpSize]
  | .cons k2 v2 tl, k, v => by
    rw [insertPair]
    by_cases h : k2 < k
    · rw [if_pos h]
      simp only [gpSize, gpSize_insertPair tl k v]
      omega
    · rw [if_neg h]
      simp only [gpSize]

/-- Sorting preserves the node count. -/
theorem gpSize_sortPairs : ∀ ps : GoPairs, gpSize (sortPairs ps) = gpSize ps
  | .nil => rfl
  | .cons k v tl => by
    rw [sortPairs, gpSize_insertPair, gpSize, gpSize_sortPairs tl]

mutual

/-- Deep sorting preserves the node count. -/
theorem gvSize_sortDeepV : ∀ v : GoValue, gvSize (sortDeepV v) = gvSize v
  | .str s => rfl
  | .num i => rfl
  | .bool b => rfl
  | .null => rfl
  | .strList xs => rfl
  | .arr xs => by rw [sortDeepV, gvSize, glSize_sortDeepL xs, gvSize]
  | .obj kvs => by rw [sortDeepV, gvSize, gpSize_sortPairs, gpSize_sortDeepP kvs, gvSize]

/-- Deep sorting preserves the node count of elements. -/
theorem glSize_sortDeepL : ∀ xs : GoValueList, glSize (sortDeepL xs) = glSize xs
  | .nil => rfl
  | .cons v tl => by rw [sortDeepL, glSize, gvSize_sortDeepV v, glSize_sortDeepL tl, glSize]

/-- Deep sorting preserves the node count of member values. -/
theorem gpSize_sortDeepP : ∀ ps : GoPairs, gpSize (sortDeepP ps) = gpSize ps
  | .nil => rfl
  | .cons k v tl => by rw [sortDeepP, gpSize, gvSize_sortDeepV v, gpSize_sortDeepP tl, gpSize]

end

/-- Looking up through `stripP` strips the found value. -/
theorem pairsLookup_stripP :
    ∀ (ps : GoPairs) (k : String),
      pairsLookup (stripP ps) k = (pairsLookup ps k).map stripV
  | .nil, k => rfl
  | .cons k2 v tl, k => by
    rw [stripP, pairsLookup, pairsLookup]
    by_cases h : k2 = k
    · rw [if_pos h, if_pos h, Option.map_some']
    · rw [if_neg h, if_neg h, pairsLookup_stripP tl k]

/-- Looking up through `sortDeepP` deep-sorts the found value. -/
theorem pairsLookup_sortDeepP :
    ∀ (ps : GoPairs) (k : String),
      pairsLookup (sortDeepP ps) k = (pairsLookup ps k).map sortDeepV
  | .nil, k => rfl
  | .cons k2 v tl, k => by
    rw [sortDeepP, pairsLookup, pairsLookup]
    by_cases h : k2 = k
    · rw [if_pos h, if_pos h, Option.map_some']
    · rw [if_neg h, if_neg h, pairsLookup_sortDeepP tl k]

/-- Looking up a key that a sorted insertion did not add. -/
theorem pairsLookup_insertPair :
    ∀ (ps : GoPairs) (k0 : String) (v0 : GoValue) (k : String),
      pairsLookup (insertPair k0 v0 ps) k =
        if k0 = k then some v0 else pairsLookup ps k
  | .nil, k0, v0, k => rfl
  | .cons k2 v2 tl, k0, v0, k => by
    rw [insertPair]
    by_cases h : k2 < k0
    · rw [if_pos h, pairsLookup]
      by_cases h2 : k2 = k
      · rw [if_pos h2, pairsLookup, if_pos h2]
        have : ¬k0 = k := by
          intro he
          subst he
          subst h2
          exact lt_irrefl _ h
        rw [if_neg this]
      · rw [if_neg h2, pairsLookup_insertPair tl k0 v0 k, pairsLookup, if_neg h2]
    · rw [if_neg h, pairsLookup]

/-- Sorting does not change lookups. -/
theorem pairsLookup_sortPairs :
    ∀ (ps : GoPairs) (k : String), pairsLookup (sortPairs ps) k = pairsLookup ps k
  | .nil, k => rfl
  | .cons k2 v tl, k => by
    rw [sortPairs, pairsLookup_insertPair, pairsLookup, pairsLookup_sortPairs tl k]

/-- Looking up in the JSON image of a body finds the JSON image of the
stored value. -/
theorem pairsLookup_normalizeBody (b : Body) (k : String) :
    pairsLookup (normalizeBody b) k = (pairsLookup b k).map normalizeGoValue := by
  rw [normalizeBody, pairsLookup_stripP, pairsLookup_sortPairs, pairsLookup_sortDeepP,
    Option.map_map]
  rfl

/-! ## Unmarshal round trips -/

/-- `json.Unmarshal` applied to `json.Marshal` output gives the stripped
sorted value. -/
theorem unmarshalTop_marshal (w : GoValue) (hwf : GoValue.WF w) :
    unmarshalTop (utf8Encode (marshalValue w)) = some (stripV w) := by
  have hparse := parseValue_marshal w hwf ((marshalValue w).length + 1) []
    (by have := marshalValue_length_ge w; omega) numBoundary_nil
  rw [List.append_nil] at hparse
  simp only [unmarshalTop, utf8Decode_utf8Encode, hparse]
  rfl

/-- The header text is the object text of its two fields. -/
theorem marshalHeader_eq (h : Header) :
    marshalHeader h =
      marshalValue (.obj (.cons "alg" (.str h.Algorithm) (.cons "typ" (.str h.Typ) .nil))) := by
  simp only [marshalHeader, marshalValue, marshalMembers,
    show marshalString "alg" = '"' :: 'a' :: 'l' :: 'g' :: ['"'] from by decide,
    show marshalString "typ" = '"' :: 't' :: 'y' :: 'p' :: ['"'] from by decide,
    List.cons_append, List.nil_append, List.append_assoc]

/-- Decoding the marshaled header gives the header back. -/
theorem unmarshalHeader_marshalHeader (h : Header) :
    unmarshalHeader (utf8Encode (marshalHeader h)) = .ok h := by
  rw [marshalHeader_eq]
  have hu : unmarshalTop (utf8Encode (marshalValue
        (.obj (.cons "alg" (.str h.Algorithm) (.cons "typ" (.str h.Typ) .nil))))) =
      some (.obj (.cons "alg" (.str h.Algorithm) (.cons "typ" (.str h.Typ) .nil))) :=
    unmarshalTop_marshal _
      (GoValue.WF.obj (by show (["alg", "typ"] : List String).Nodup; decide)
        (GoPairs.WF.cons (GoValue.WF.str _) (GoPairs.WF.cons (GoValue.WF.str _) GoPairs.WF.nil)))
  simp only [unmarshalHeader, hu]
  rfl

/-- Decoding the marshaled body gives its JSON image back. -/
theorem unmarshalBody_marshalBody (b : Body) (hwf : GoValue.WF (.obj b)) :
    unmarshalBody (utf8Encode (jsonMarshal (.obj b))) = .ok (normalizeBody b) := by
  have hu : unmarshalTop (utf8Encode (marshalValue (sortDeepV (.obj b)))) =
      some (.obj (normalizeBody b)) := unmarshalTop_marshal _ (sortDeepV_WF _ hwf)
  simp only [unmarshalBody, jsonMarshal, hu]

/-! ## The full wire round trip -/

/-- Parsing a serialized token succeeds and returns the token's JSON
image: the same header, the body's JSON image, and a present signature
carrying the same bytes (a nil signature reappears as a present
zero-length one). -/
theorem Parse_Serialize (t : Token) (hwf : GoValue.WF (.obj t.Body))
    (hsig : ∀ b ∈ t.Signature.getD [], b < 256) :
    Parse t.Serialize =
      .ok { Header := t.Header, Body := normalizeBody t.Body,
            Signature := some (t.Signature.getD []) } := by
  have hH : ∀ b ∈ utf8Encode (marshalHeader t.Header), b < 256 := utf8Encode_lt_256 _
  have hB : ∀ b ∈ utf8Encode (jsonMarshal (.obj t.Body)), b < 256 := utf8Encode_lt_256 _
  have hdata : (t.Serialize).data =
      encodeB64 (utf8Encode (marshalHeader t.Header)) ++
        '.' :: (encodeB64 (utf8Encode (jsonMarshal (.obj t.Body))) ++
          '.' :: encodeB64 (t.Signature.getD [])) := by
    simp [Token.Serialize, serializeHeaderAndBody, List.append_assoc]
  have hsplit : splitOnDot (t.Serialize).data =
      [encodeB64 (utf8Encode (marshalHeader t.Header)),
        encodeB64 (utf8Encode (jsonMarshal (.obj t.Body))),
        encodeB64 (t.Signature.getD [])] := by
    rw [hdata, splitOnDot_append _ _ (encodeB64_ne_dot _ hH),
      splitOnDot_append _ _ (encodeB64_ne_dot _ hB),
      splitOnDot_no_dot _ (encodeB64_ne_dot _ hsig)]
  simp only [Parse, hsplit, decodeB64_encodeB64 _ hH, decodeB64_encodeB64 _ hB,
    decodeB64_encodeB64 _ hsig, unmarshalHeader_marshalHeader, unmarshalBody_marshalBody _ hwf]

/-! ## The parser never builds `[]string` values -/

/-- Map insertion preserves the no-`[]string` invariant. -/
theorem pairsInsert_noStrList (k : String) (v : GoValue) :
    ∀ ps : GoPairs, gpNoStrList ps = true → gvNoStrList v = true →
      gpNoStrList (pairsInsert k v ps) = true
  | .nil, _, hv => by simp [pairsInsert, gpNoStrList, hv]
  | .cons k2 v2 tl, hps, hv => by
    rw [gpNoStrList, Bool.and_eq_true] at hps
    by_cases hk : k2 = k
    · simp [pairsInsert, hk, gpNoStrList, hv, hps.2]
    · simp [pairsInsert, hk, gpNoStrList, hps.1,
        pairsInsert_noStrList k v tl hps.2 hv]

/-- Folding map insertions preserves the no-`[]string` invariant. -/
theorem pairsFoldInsert_noStrList :
    ∀ (ps acc : GoPairs), gpNoStrList acc = true → gpNoStrList ps = true →
      gpNoStrList (pairsFoldInsert acc ps) = true
  | .nil, _, hacc, _ => hacc
  | .cons k v tl, acc, hacc, hps => by
    rw [gpNoStrList, Bool.and_eq_true] at hps
    exact pairsFoldInsert_noStrList tl _
      (pairsInsert_noStrList k v acc hacc hps.1) hps.2

/-- A parsed negated number is a `num` node. -/
theorem parseNegNumber_noStrList (cs : List Char) (v : GoValue) (rest : List Char)
    (h : parseNegNumber cs = some (v, rest)) : gvNoStrList v = true := by
  match cs with
  | [] => exact Option.noConfusion h
  | c :: cs2 =>
    simp only [parseNegNumber] at h
    split at h
    · rw [Option.some.injEq, Prod.mk.injEq] at h
      obtain ⟨h1, -⟩ := h
      subst h1
      rfl
    · exact Option.noConfusion h

/-- A parsed number is a `num` node. -/
theorem parseNumber_noStrList (cs : List Char) (v : GoValue) (rest : List Char)
    (h : parseNumber cs = some (v, rest)) : gvNoStrList v = true := by
  match cs with
  | [] => exact Option.noConfusion h
  | c :: cs2 =>
    simp only [parseNumber] at h
    split at h
    · exact parseNegNumber_noStrList cs2 v rest h
    · split at h
      · rw [Option.some.injEq, Prod.mk.injEq] at h
        obtain ⟨h1, -⟩ := h
        subst h1
        rfl
      · exact Option.noConfusion h

/-- An array continuation preserves the invariant elementwise. -/
theorem elemsAfter_noStrList (recurse : List Char → Option (GoValueList × List Char))
    (hrec : ∀ r xs rest, recurse r = some (xs, rest) → glNoStrList xs = true)
    (v : GoValue) (hv : gvNoStrList v = true) (r : List Char) (xs : GoValueList)
    (rest : List Char) (h : elemsAfter recurse v r = some (xs, rest)) :
    glNoStrList xs = true := by
  simp only [elemsAfter] at h
  split at h
  · exact Option.noConfusion h
  · split at h
    · rw [Option.map_eq_some'] at h
      obtain ⟨p, hp, hmap⟩ := h
      rw [Prod.mk.injEq] at hmap
      obtain ⟨h1, -⟩ := hmap
      subst h1
      rw [glNoStrList, Bool.and_eq_true]
      exact ⟨hv, hrec _ _ _ hp⟩
    · split at h
      · rw [Option.some.injEq, Prod.mk.injEq] at h
        obtain ⟨h1, -⟩ := h
        subst h1
        simp [glNoStrList, hv]
      · exact Option.noConfusion h

/-- Every element list the array parser returns satisfies the
invariant. -/
theorem parseElemsAux_noStrList (pv : List Char → Option (GoValue × List Char))
    (hpv : ∀ cs v rest, pv cs = some (v, rest) → gvNoStrList v = true) :
    ∀ (f : Nat) (cs : List Char) (xs : GoValueList) (rest : List Char),
      parseElemsAux pv f cs = some (xs, rest) → glNoStrList xs = true
  | 0, _, _, _ => fun h => Option.noConfusion h
  | f + 1, cs, xs, rest => fun h => by
    simp only [parseElemsAux] at h
    split at h
    · exact Option.noConfusion h
    · next v r heq =>
      exact elemsAfter_noStrList (parseElemsAux pv f)
        (fun r2 ys rest2 hy => parseElemsAux_noStrList pv hpv f r2 ys rest2 hy)
        v (hpv cs v r heq) r xs rest h

/-- An object continuation preserves the invariant valuewise. -/
theorem membersAfter_noStrList (recurse : List Char → Option (GoPairs × List Char))
    (hrec : ∀ r ps rest, recurse r = some (ps, rest) → gpNoStrList ps = true)
    (k : String) (v : GoValue) (hv : gvNoStrList v = true) (r : List Char)
    (ps : GoPairs) (rest : List Char) (h : membersAfter recurse k v r = some (ps, rest)) :
    gpNoStrList ps = true := by
  simp only [membersAfter] at h
  split at h
  · exact Option.noConfusion h
  · split at h
    · rw [Option.map_eq_some'] at h
      obtain ⟨p, hp, hmap⟩ := h
      rw [Prod.mk.injEq] at hmap
      obtain ⟨h1, -⟩ := hmap
      subst h1
      rw [gpNoStrList, Bool.and_eq_true]
      exact ⟨hv, hrec _ _ _ hp⟩
    · split at h
      · rw [Option.some.injEq, Prod.mk.injEq] at h
        obtain ⟨h1, -⟩ := h
        subst h1
        simp [gpNoStrList, hv]
      · exact Option.noConfusion h

/-- A member's colon-and-value step preserves the invariant. -/
theorem membersColon_noStrList (pv : List Char → Option (GoValue × List Char))
    (hpv : ∀ cs v rest, pv cs = some (v, rest) → gvNoStrList v = true)
    (recurse : List Char → Option (GoPairs × List Char))
    (hrec : ∀ r ps rest, recurse r = some (ps, rest) → gpNoStrList ps = true)
    (k : List Char) (r : List Char) (ps : GoPairs) (rest : List Char)
    (h : membersColon pv recurse k r = some (ps, rest)) : gpNoStrList ps = true := by
  simp only [membersColon] at h
  split at h
  · exact Option.noConfusion h
  · split at h
    · split at h
      · exact Option.noConfusion h
      · next v r3 heq =>
        exact membersAfter_noStrList recurse hrec _ v (hpv _ v r3 heq) r3 ps rest h
    · exact Option.noConfusion h

/-- Every member list the object parser returns satisfies the
invariant. -/
theorem parseMembersAux_noStrList (pv : List Char → Option (GoValue × List Char))
    (hpv : ∀ cs v rest, pv cs = some (v, rest) → gvNoStrList v = true) :
    ∀ (f : Nat) (cs : List Char) (ps : GoPairs) (rest : List Char),
      parseMembersAux pv f cs = some (ps, rest) → gpNoStrList ps = true
  | 0, _, _, _ => fun h => Option.noConfusion h
  | f + 1, cs, ps, rest => fun h => by
    simp only [parseMembersAux] at h
    split at h
    · exact Option.noConfusion h
    · split at h
      · split at h
        · exact Option.noConfusion h
        · next k r2 heq =>
          exact membersColon_noStrList pv hpv (parseMembersAux pv f)
            (fun r3 qs rest2 hq => parseMembersAux_noStrList pv hpv f r3 qs rest2 hq)
            k r2 ps rest h
      · exact Option.noConfusion h

/-- The head dispatcher never builds a `[]string` node. -/
theorem parseValueHead_noStrList (pv : List Char → Option (GoValue × List Char))
    (hpv : ∀ cs v rest, pv cs = some (v, rest) → gvNoStrList v = true)
    (c : Char) (r : List Char) (v : GoValue) (rest : List Char)
    (h : parseValueHead pv c r = some (v, rest)) : gvNoStrList v = true := by
  simp only [parseValueHead] at h
  split at h
  · split at h
    · rw [Option.some.injEq, Prod.mk.injEq] at h
      obtain ⟨h1, -⟩ := h
      subst h1
      rfl
    · exact Option.noConfusion h
  · split at h
    · split at h
      · rw [Option.some.injEq, Prod.mk.injEq] at h
        obtain ⟨h1, -⟩ := h
        subst h1
        rfl
      · exact Option.noConfusion h
    · split at h
      · split at h
        · rw [Option.some.injEq, Prod.mk.injEq] at h
          obtain ⟨h1, -⟩ := h
          subst h1
          rfl
        · exact Option.noConfusion h
      · split at h
        · rw [Option.map_eq_some'] at h
          obtain ⟨p, hp, hmap⟩ := h
          rw [Prod.mk.injEq] at hmap
          obtain ⟨h1, -⟩ := hmap
          subst h1
          rfl
        · split at h
          · split at h
            · exact Option.noConfusion h
            · split at h
              · rw [Option.some.injEq, Prod.mk.injEq] at h
                obtain ⟨h1, -⟩ := h
                subst h1
                rfl
              · rw [Option.map_eq_some'] at h
                obtain ⟨p, hp, hmap⟩ := h
                rw [Prod.mk.injEq] at hmap
                obtain ⟨h1, -⟩ := hmap
                subst h1
                rw [gvNoStrList]
                exact parseElemsAux_noStrList pv hpv _ _ p.1 p.2 hp
          · split at h
            · split at h
              · exact Option.noConfusion h
              · split at h
                · rw [Option.some.injEq, Prod.mk.injEq] at h
                  obtain ⟨h1, -⟩ := h
                  subst h1
                  rfl
                · rw [Option.map_eq_some'] at h
                  obtain ⟨p, hp, hmap⟩ := h
                  rw [Prod.mk.injEq] at hmap
                  obtain ⟨h1, -⟩ := hmap
                  subst h1
                  rw [gvNoStrList]
                  exact pairsFoldInsert_noStrList p.1 .nil rfl
                    (parseMembersAux_noStrList pv hpv _ _ p.1 p.2 hp)
            · exact parseNumber_noStrList _ v rest h

/-- No value the JSON parser returns contains a `[]string` node. -/
theorem parseValue_noStrList :
    ∀ (f : Nat) (cs : List Char) (v : GoValue) (rest : List Char),
      parseValue f cs = some (v, rest) → gvNoStrList v = true
  | 0, _, _, _ => fun h => Option.noConfusion h
  | f + 1, cs, v, rest => fun h => by
    simp only [parseValue] at h
    split at h
    · exact Option.noConfusion h
    · exact parseValueHead_noStrList (parseValue f) (parseValue_noStrList f) _ _ v rest h

/-- No value `json.Unmarshal` returns contains a `[]string` node. -/
theorem unmarshalTop_noStrList (bs : List Nat) (v : GoValue)
    (h : unmarshalTop bs = some v) : gvNoStrList v = true := by
  simp only [unmarshalTop] at h
  split at h
  · exact Option.noConfusion h
  · split at h
    · next v2 rest heq =>
      split at h
      · rw [Option.some.injEq] at h
        subst h
        exact parseValue_noStrList _ _ v2 rest heq
      · exact Option.noConfusion h
    · exact Option.noConfusion h

/-- No value of a decoded body contains a `[]string` node. -/
theorem unmarshalBody_noStrList (bs : List Nat) (b : Body)
    (h : unmarshalBody bs = .ok b) : gpNoStrList b = true := by
  simp only [unmarshalBody] at h
  split at h
  · rw [Except.ok.injEq] at h
    subst h
    rfl
  · next kvs heq =>
    rw [Except.ok.injEq] at h
    subst h
    exact unmarshalTop_noStrList bs _ heq
  · exact Except.noConfusion h
  · exact Except.noConfusion h

/-- Lookup in an invariant-satisfying map returns invariant-satisfying
values. -/
theorem pairsLookup_noStrList (k : String) :
    ∀ (ps : GoPairs), gpNoStrList ps = true →
      ∀ v, pairsLookup ps k = some v → gvNoStrList v = true
  | .nil, _, v => fun h => Option.noConfusion h
  | .cons k2 v2 tl, hps, v => fun h => by
    rw [gpNoStrList, Bool.and_eq_true] at hps
    by_cases hk : k2 = k
    · rw [pairsLookup, if_pos hk, Option.some.injEq] at h
      subst h
      exact hps.1
    · rw [pairsLookup, if_neg hk] at h
      exact pairsLookup_noStrList k tl hps.2 v h

/-- A token whose body satisfies the invariant has no scopes at all. -/
theorem hasScope_eq_false_of_noStrList (t : Token) (h : gpNoStrList t.Body = true)
    (s : String) : t.HasScope s = false := by
  rw [Token.HasScope]
  split
  · next xs heq =>
    have hv := pairsLookup_noStrList "scope" t.Body h _ heq
    simp [gvNoStrList] at hv
  · rfl

/-! ## The shape of any successfully parsed token -/

/-- A token `Parse` returns always carries a present signature and a
body that `json.Unmarshal` produced. -/
theorem Parse_ok_inv (s : String) (u : Token) (h : Parse s = .ok u) :
    u.Signature.isSome = true ∧ ∃ raw, unmarshalBody raw = .ok u.Body := by
  simp only [Parse] at h
  split at h
  · split at h
    · exact Except.noConfusion h
    · split at h
      · exact Except.noConfusion h
      · next rawBody hB =>
        split at h
        · exact Except.noConfusion h
        · split at h
          · exact Except.noConfusion h
          · split at h
            · exact Except.noConfusion h
            · next body hunm =>
              rw [Except.ok.injEq] at h
              subst h
              exact ⟨rfl, ⟨rawBody, hunm⟩⟩
  · exact Except.noConfusion h

/-! ## The swap-with-last removal of `RemoveScope` -/

/-- A found index, relative to the start index, is within the list. -/
theorem findIdx?_bound {α : Type} (p : α → Bool) :
    ∀ (xs : List α) (j i : Nat), List.findIdx? p xs j = some i →
      j ≤ i ∧ i - j < xs.length
  | [], j, i => fun h => Option.noConfusion h
  | x :: xs, j, i => fun h => by
    rw [List.findIdx?_cons] at h
    split at h
    · rw [Option.some.injEq] at h
      subst h
      simp
    · have := findIdx?_bound p xs (j + 1) i h
      constructor
      · omega
      · simp only [List.length_cons]
        omega

/-- A found index is within the list. -/
theorem findIdx?_lt_length {α : Type} (p : α → Bool) (xs : List α) (i : Nat)
    (h : xs.findIdx? p = some i) : i < xs.length := by
  have := findIdx?_bound p xs 0 i h
  omega

/-- Setting a position to the element already there changes nothing. -/
theorem set_getElem_self {α : Type} (xs : List α) (i : Nat) (hi : i < xs.length) :
    xs.set i (xs[i]) = xs := by
  rw [List.set_eq_take_append_cons_drop, if_pos hi, List.getElem_cons_drop,
    List.take_append_drop]

/-- The swap-with-last removal at index `i` keeps exactly the other
entries: it is a permutation of erasing index `i`. -/
theorem swapRemove_perm (xs : List String) (i : Nat) (hi : i < xs.length) :
    List.Perm
      (((xs.set i (xs.getLastD "")).set (xs.length - 1) (xs.getD i "")).take
        (xs.length - 1))
      (xs.eraseIdx i) := by
  have hgetD : xs.getD i "" = xs[i] := List.getD_eq_getElem xs "" hi
  have hlast : xs.getLastD "" = xs.getD (xs.length - 1) "" := by
    rw [List.getLastD_eq_getLast?, List.getLast?_eq_getElem?,
      List.getD_eq_getElem?_getD]
  by_cases hcase : i = xs.length - 1
  · subst hcase
    rw [hlast, hgetD, set_getElem_self, set_getElem_self,
      List.eraseIdx_eq_take_drop_succ,
      show xs.length - 1 + 1 = xs.length from by omega, List.drop_length,
      List.append_nil]
  · have hi1 : i < xs.length - 1 := by omega
    set B := xs.drop (i + 1) with hB
    have hBlen : B.length = xs.length - (i + 1) := List.length_drop (i + 1) xs
    have hBne : B ≠ [] := by
      intro hnil
      rw [hnil] at hBlen
      simp at hBlen
      omega
    have hlastB : xs.getLastD "" = B.getLast hBne := by
      have h9 : B[B.length - 1]? = xs[xs.length - 1]? := by
        rw [hB, List.getElem?_drop]
        congr 1
        simp only [List.length_drop]
        omega
      rw [List.getElem?_eq_getElem (by omega), List.getElem?_eq_getElem (by omega)] at h9
      rw [hlast, List.getD_eq_getElem xs "" (show xs.length - 1 < xs.length from by omega),
        List.getLast_eq_getElem]
      exact (Option.some.inj h9).symm
    have hs1 : xs.set i (xs.getLastD "") =
        xs.take i ++ xs.getLastD "" :: B := by
      rw [List.set_eq_take_append_cons_drop, if_pos hi, hB]
    have hLlen : (xs.take i ++ xs.getLastD "" :: B).length = xs.length := by
      simp only [List.length_append, List.length_take, List.length_cons, hBlen]
      omega
    have hs2 : (xs.take i ++ xs.getLastD "" :: B).set (xs.length - 1) (xs.getD i "") =
        (xs.take i ++ xs.getLastD "" :: B).take (xs.length - 1) ++ [xs.getD i ""] := by
      rw [List.set_eq_take_append_cons_drop, if_pos (by omega)]
      rw [show xs.length - 1 + 1 = (xs.take i ++ xs.getLastD "" :: B).length from by omega,
        List.drop_length]
    have htk : ((xs.take i ++ xs.getLastD "" :: B).take (xs.length - 1) ++
          [xs.getD i ""]).take (xs.length - 1) =
        (xs.take i ++ xs.getLastD "" :: B).take (xs.length - 1) := by
      rw [List.take_append_eq_append_take, List.take_take, List.length_take, hLlen,
        Nat.min_self, Nat.min_eq_left (by omega), Nat.sub_self, List.take_zero,
        List.append_nil]
    have htk2 : (xs.take i ++ xs.getLastD "" :: B).take (xs.length - 1) =
        xs.take i ++ xs.getLastD "" :: B.dropLast := by
      rw [List.take_append_eq_append_take, List.take_take, List.length_take]
      have h1 : min (xs.length - 1) i = i := by omega
      rw [h1, show xs.length - 1 - min i xs.length = (xs.length - 2 - i) + 1 from by omega,
        List.take_succ_cons]
      congr 2
      rw [List.dropLast_eq_take]
      congr 1
      omega
    rw [hs1, hs2, htk, htk2, List.eraseIdx_eq_take_drop_succ, ← hB]
    apply List.Perm.append_left
    have hperm := List.perm_append_singleton (B.getLast hBne) B.dropLast
    rw [List.dropLast_append_getLast hBne] at hperm
    rw [hlastB]
    exact hperm.symm

/-- The swap-with-last removal shortens the list by one. -/
theorem swapRemove_length (xs : List String) (i : Nat) :
    (((xs.set i (xs.getLastD "")).set (xs.length - 1) (xs.getD i "")).take
      (xs.length - 1)).length = xs.length - 1 := by
  simp [List.length_take, List.length_set]

/-! ## ECDSA verification accepts what the signing equation produced -/

/-- The Fermat inverse cancels a nonzero element modulo a prime. -/
theorem mul_zinv (n : Nat) (hp : n.Prime) (a : ZMod n) (ha : a ≠ 0) :
    a * zinv n a = 1 := by
  have hfact : Fact n.Prime := ⟨hp⟩
  have h2 : 2 ≤ n := hp.two_le
  rw [zinv, ← pow_succ', show n - 2 + 1 = n - 1 from by omega]
  exact ZMod.pow_card_sub_one_eq_one ha

/-- Any signature produced by one successful signing attempt passes the
verification equation under the matching public key. -/
theorem ecdsaVerify_of_signOnce (n : Nat) (P : Type) [AddCommGroup P] [DecidableEq P]
    (G : P) (xModN : P → ZMod n) (hp : n.Prime) (hord : addOrderOf G = n)
    (d k : ZMod n) (z : Nat) (r s : ZMod n)
    (h : ecdsaSignOnce n P G xModN d z k = some (r, s)) :
    ecdsaVerify n P G xModN (d.val • G) z r.val s.val = true := by
  have hfact : Fact n.Prime := ⟨hp⟩
  have hnz : NeZero n := ⟨by have := hp.two_le; omega⟩
  simp only [ecdsaSignOnce] at h
  split at h
  · exact Option.noConfusion h
  next hk =>
    split at h
    · exact Option.noConfusion h
    next hr0 =>
      split at h
      · exact Option.noConfusion h
      next hs0 =>
        rw [Option.some.injEq, Prod.mk.injEq] at h
        obtain ⟨hr, hs⟩ := h
        subst hr
        subst hs
        set R := xModN (k.val • G) with hRdef
        set S := zinv n k * ((z : ZMod n) + R * d) with hSdef
        have hRv : ((R.val : Nat) : ZMod n) = R := by
          rw [ZMod.natCast_val, ZMod.cast_id]
        have hSv : ((S.val : Nat) : ZMod n) = S := by
          rw [ZMod.natCast_val, ZMod.cast_id]
        have hSk : S * k = (z : ZMod n) + R * d := by
          calc S * k = (k * zinv n k) * ((z : ZMod n) + R * d) := by rw [hSdef]; ring
          _ = (z : ZMod n) + R * d := by rw [mul_zinv n hp k hk, one_mul]
        have hSw : S * zinv n S = 1 := mul_zinv n hp S hs0
        have hkey : (z : ZMod n) * zinv n S + R * zinv n S * d = k := by
          calc (z : ZMod n) * zinv n S + R * zinv n S * d
              = ((z : ZMod n) + R * d) * zinv n S := by ring
          _ = (S * k) * zinv n S := by rw [hSk]
          _ = k * (S * zinv n S) := by ring
          _ = k := by rw [hSw, mul_one]
        have hptne : k.val • G ≠ 0 := by
          intro h0
          have hdvd : addOrderOf G ∣ k.val := addOrderOf_dvd_iff_nsmul_eq_zero.mpr h0
          rw [hord] at hdvd
          have hz : k.val = 0 := Nat.eq_zero_of_dvd_of_lt hdvd (ZMod.val_lt k)
          exact hk ((ZMod.val_eq_zero k).mp hz)
        simp only [ecdsaVerify]
        rw [if_neg (by
          push_neg
          refine ⟨?_, ?_, ?_, ?_⟩
          · intro h0
            exact hr0 ((ZMod.val_eq_zero R).mp h0)
          · exact ZMod.val_lt R
          · intro h0
            exact hs0 ((ZMod.val_eq_zero S).mp h0)
          · exact ZMod.val_lt S)]
        rw [hRv, hSv]
        have hpt : (((z : ZMod n) * zinv n S).val) • G +
            ((R * zinv n S).val) • (ZMod.val d • G) = k.val • G := by
          rw [← mul_nsmul, ← add_nsmul,
            ← mod_addOrderOf_nsmul G (((z : ZMod n) * zinv n S).val +
              ZMod.val d * ((R * zinv n S).val)),
            ← mod_addOrderOf_nsmul G k.val, hord]
          have hc : (((((z : ZMod n) * zinv n S).val +
                ZMod.val d * ((R * zinv n S).val) : Nat)) : ZMod n) =
              ((k.val : Nat) : ZMod n) := by
            rw [Nat.cast_add, Nat.cast_mul]
            simp only [ZMod.natCast_val, ZMod.cast_id]
            rw [show (z : ZMod n) * zinv n S + d * (R * zinv n S) =
              (z : ZMod n) * zinv n S + R * zinv n S * d from by ring]
            exact hkey
          have hmod : (((z : ZMod n) * zinv n S).val +
              ZMod.val d * ((R * zinv n S).val)) % n = k.val % n :=
            (ZMod.natCast_eq_natCast_iff _ _ n).mp hc
          rw [hmod]
        rw [hpt, if_neg hptne, ← hRdef]
        simp

/-! ## The claims -/

/-- C3: Signing an already-signed token returns the immutability error
and leaves the token untouched, and an unsigned token whose signer fails
gets that error propagated unchanged with the token unmodified. -/
theorem claim_C3 (t : Token) (signer : Signer) (err : GoErr) :
    (t.IsSigned = true → t.Sign signer = (some ErrImmutable, t)) ∧
    (t.IsSigned = false →
      signer.Sign (serializeHeaderAndBody
        { Typ := t.Header.Typ, Algorithm := signer.Algorithm } t.Body) = .error err →
      t.Sign signer = (some err, t)) := by
  constructor
  · intro hs
    simp [Token.Sign, hs]
  · intro hs hf
    simp [Token.Sign, hs, hf]

/-- C3 witness: a concrete signed token gets the immutability error and
survives unchanged; a concrete failing signer's error comes back verbatim
on a fresh token, which is unchanged. -/
theorem claim_C3_witness :
    (Token.Sign { Header := NewHeader, Body := .nil, Signature := some [7] }
        { Algorithm := "X", Sign := fun _ => .error (.custom "boom") } =
      (some ErrImmutable, { Header := NewHeader, Body := .nil, Signature := some [7] })) ∧
    (Token.Sign NewToken { Algorithm := "X", Sign := fun _ => .error (.custom "boom") } =
      (some (GoErr.custom "boom"), NewToken)) :=
  ⟨(claim_C3 { Header := NewHeader, Body := .nil, Signature := some [7] }
      { Algorithm := "X", Sign := fun _ => .error (.custom "boom") } (.custom "boom")).1 rfl,
    (claim_C3 NewToken { Algorithm := "X", Sign := fun _ => .error (.custom "boom") }
      (.custom "boom")).2 rfl rfl⟩

/-- C4: A token is signed exactly when its signature field is present,
and every token `Parse` returns - including one whose third segment
decodes to zero bytes - reports as signed. -/
theorem claim_C4 (t : Token) (s : String) (u : Token) (hu : Parse s = .ok u) :
    (t.IsSigned = true ↔ ∃ bs, t.Signature = some bs) ∧ u.IsSigned = true := by
  constructor
  · exact Option.isSome_iff_exists
  · exact (Parse_ok_inv s u hu).1

/-- C4 witness: the wire string `e30.e30.` has an empty third segment,
decoding to zero signature bytes, yet the parsed token reports signed. -/
theorem claim_C4_witness :
    (NewToken.IsSigned = true ↔ ∃ bs, NewToken.Signature = some bs) ∧
    Token.IsSigned { Header := { Algorithm := "", Typ := "" }, Body := .nil,
                     Signature := some [] } = true :=
  claim_C4 NewToken "e30.e30."
    { Header := { Algorithm := "", Typ := "" }, Body := .nil, Signature := some [] }
    (by decide)

/-- C5: On a signed token the scope mutations are no-ops, while the claim
mutations with a non-reserved name are unguarded by the signed state and
still rewrite the body. -/
theorem claim_C5 (t : Token) (hs : t.IsSigned = true) (s name : String)
    (v : GoValue) (hn : name ≠ "scope") :
    t.AddScope s = t ∧ t.RemoveScope s = t ∧
    (t.AddClaim name v).Body = pairsInsert name v t.Body ∧
    (t.RemoveClaim name).Body = pairsErase name t.Body := by
  refine ⟨?_, ?_, ?_, ?_⟩
  · simp [Token.AddScope, hs]
  · simp [Token.RemoveScope, hs]
  · simp [Token.AddClaim, hn]
  · simp [Token.RemoveClaim, hn]

/-- C5 witness: a concrete signed token ignores scope mutations but still
takes claim mutations under a non-reserved name. -/
theorem claim_C5_witness :
    Token.AddScope { Header := NewHeader, Body := .nil, Signature := some [] } "x" =
      { Header := NewHeader, Body := .nil, Signature := some [] } ∧
    Token.RemoveScope { Header := NewHeader, Body := .nil, Signature := some [] } "x" =
      { Header := NewHeader, Body := .nil, Signature := some [] } ∧
    (Token.AddClaim { Header := NewHeader, Body := .nil, Signature := some [] }
      "aud" .null).Body = pairsInsert "aud" .null GoPairs.nil ∧
    (Token.RemoveClaim { Header := NewHeader, Body := .nil, Signature := some [] }
      "aud").Body = pairsErase "aud" GoPairs.nil :=
  claim_C5 { Header := NewHeader, Body := .nil, Signature := some [] } rfl "x" "aud"
    .null (by decide)

/-- C6: Adding or removing a claim under the reserved name "scope" never
changes scope membership, and reading that claim always reports absent,
whether or not scopes are stored. -/
theorem claim_C6 (t : Token) (v : GoValue) (s : String) :
    (t.AddClaim "scope" v).HasScope s = t.HasScope s ∧
    (t.RemoveClaim "scope").HasScope s = t.HasScope s ∧
    t.GetClaim "scope" = none := by
  refine ⟨?_, ?_, ?_⟩
  · simp [Token.AddClaim]
  · simp [Token.RemoveClaim]
  · simp [Token.GetClaim]

/-- C9: `Verify` is a pure boolean check: on an unsigned token it is
false without consulting the verifier (any two verifiers agree on it),
and no error value exists to surface. -/
theorem claim_C9 (t : Token) (v1 v2 : Verifier) (h : t.IsSigned = false) :
    t.Verify v1 = false ∧ t.Verify v1 = t.Verify v2 := by
  constructor
  · simp [Token.Verify, h]
  · simp [Token.Verify, h]

/-- C9 witness: a fresh unsigned token verifies false even under the
always-accepting verifier, and agrees with the always-rejecting one. -/
theorem claim_C9_witness :
    Token.Verify NewToken { Verify := fun _ _ => true } = false ∧
    Token.Verify NewToken { Verify := fun _ _ => true } =
      Token.Verify NewToken { Verify := fun _ _ => false } :=
  claim_C9 NewToken { Verify := fun _ _ => true } { Verify := fun _ _ => false } rfl

/-- C7: On an unsigned token, `RemoveScope` matches against the
whitespace-trimmed scope and removes exactly the first matching entry by
swapping it with the last element and truncating: the result stored back
is one entry shorter and a permutation of the list with that entry
erased (membership of the others is kept, order may change).  When no
entry matches, or no in-memory scope list is stored, the token is
unchanged. -/
theorem claim_C7 (t t2 t3 : Token) (s : String) (xs xs2 : List String) (i : Nat)
    (hs : t.IsSigned = false)
    (hl : pairsLookup t.Body "scope" = some (.strList xs))
    (hi : xs.findIdx? (fun v => v == trimSpace s) = some i)
    (hs2 : t2.IsSigned = false)
    (hl2 : pairsLookup t2.Body "scope" = some (.strList xs2))
    (hi2 : xs2.findIdx? (fun v => v == trimSpace s) = none)
    (hs3 : t3.IsSigned = false)
    (hl3 : isStrListOpt (pairsLookup t3.Body "scope") = false) :
    (∃ ys, t.RemoveScope s = { t with Body := pairsInsert "scope" (.strList ys) t.Body } ∧
      ys.length = xs.length - 1 ∧ List.Perm ys (xs.eraseIdx i)) ∧
    t2.RemoveScope s = t2 ∧ t3.RemoveScope s = t3 := by
  refine ⟨?_, ?_, ?_⟩
  · have hilt : i < xs.length := findIdx?_lt_length _ xs i hi
    refine ⟨((xs.set i (xs.getLastD "")).set (xs.length - 1) (xs.getD i "")).take
        (xs.length - 1), ?_, swapRemove_length xs i, swapRemove_perm xs i hilt⟩
    simp [Token.RemoveScope, hs, hl, hi]
  · simp [Token.RemoveScope, hs2, hl2, hi2]
  · rw [Token.RemoveScope]
    simp only [hs3, Bool.false_eq_true, if_false]
    split
    · next xs3 heq =>
      rw [heq] at hl3
      simp [isStrListOpt] at hl3
    · rfl

/-- C7 witness: removing `"b "` (trimmed to `"b"`) from the scope list
`["a", "b"]` stores back a one-element permutation of `["a"]`; removing
it from `["a"]` or from a token with no scope list changes nothing. -/
theorem claim_C7_witness :
    (∃ ys,
      Token.RemoveScope
        { Header := NewHeader,
          Body := .cons "scope" (.strList ["a", "b"]) .nil,
          Signature := none } "b " =
        { Header := NewHeader,
          Body := pairsInsert "scope" (.strList ys)
            (.cons "scope" (.strList ["a", "b"]) .nil),
          Signature := none } ∧
      ys.length = (["a", "b"] : List String).length - 1 ∧
      List.Perm ys ((["a", "b"] : List String).eraseIdx 1)) ∧
    Token.RemoveScope
      { Header := NewHeader,
        Body := .cons "scope" (.strList ["a"]) .nil,
        Signature := none } "b " =
      { Header := NewHeader,
        Body := .cons "scope" (.strList ["a"]) .nil,
        Signature := none } ∧
    Token.RemoveScope NewToken "b " = NewToken :=
  claim_C7
    { Header := NewHeader,
      Body := .cons "scope" (.strList ["a", "b"]) .nil,
      Signature := none }
    { Header := NewHeader,
      Body := .cons "scope" (.strList ["a"]) .nil,
      Signature := none }
    NewToken "b " ["a", "b"] ["a"] 1 rfl (by decide) (by decide) rfl (by decide)
    (by decide) rfl (by decide)

/-- C10: `HasScope` accepts only the in-memory `[]string` shape, which
JSON decoding never builds (arrays decode to generic values), so every
token `Parse` returns reports false for every queried scope, even when
the wire body held a non-empty scope array. -/
theorem claim_C10 (s : String) (u : Token) (hu : Parse s = .ok u) (scope : String) :
    u.HasScope scope = false := by
  obtain ⟨-, raw, hraw⟩ := Parse_ok_inv s u hu
  exact hasScope_eq_false_of_noStrList u (unmarshalBody_noStrList raw u.Body hraw) scope

/-- C10 witness: serializing a token whose scope list is `["a"]` and
parsing the wire string back gives a token that nevertheless reports
`HasScope "a" = false`. -/
theorem claim_C10_witness :
    Token.HasScope
      { Header := { Algorithm := "None", Typ := "JWT" },
        Body := .cons "scope" (.arr (.cons (.str "a") .nil)) .nil,
        Signature := some [] } "a" = false :=
  claim_C10
    (Token.Serialize
      { Header := NewHeader,
        Body := .cons "scope" (.strList ["a"]) .nil,
        Signature := none })
    { Header := { Algorithm := "None", Typ := "JWT" },
      Body := .cons "scope" (.arr (.cons (.str "a") .nil)) .nil,
      Signature := some [] }
    (by decide) "a"

/-- C1: Parsing a serialized token reproduces the header exactly and the
signature bytes exactly (a nil signature reappears as a present
zero-length one), but reproduces body values only up to their JSON
image: per key, the parsed value is `normalizeGoValue` of the stored
value, not necessarily the stored value itself (see the
counterexample). -/
theorem claim_C1 (t : Token) (k : String) (hwf : GoValue.WF (.obj t.Body))
    (hsig : ∀ b ∈ t.Signature.getD [], b < 256) :
    Parse t.Serialize =
      .ok { Header := t.Header, Body := normalizeBody t.Body,
            Signature := some (t.Signature.getD []) } ∧
    pairsLookup (normalizeBody t.Body) k = (pairsLookup t.Body k).map normalizeGoValue :=
  ⟨Parse_Serialize t hwf hsig, pairsLookup_normalizeBody t.Body k⟩

/-- C1 counterexample: a token storing the scope list `["a"]` serializes
to the wire body `{"scope":["a"]}`, which parses back to a generic array
value; the parsed body's value under `"scope"` is not the original
`[]string` value, refuting value-for-value body equality. -/
theorem claim_C1_counterexample :
    Parse (Token.Serialize
      { Header := NewHeader,
        Body := .cons "scope" (.strList ["a"]) .nil,
        Signature := none }) =
      .ok { Header := { Algorithm := "None", Typ := "JWT" },
            Body := .cons "scope" (.arr (.cons (.str "a") .nil)) .nil,
            Signature := some [] } ∧
    pairsLookup (GoPairs.cons "scope" (.arr (.cons (.str "a") .nil)) .nil) "scope" ≠
      pairsLookup (GoPairs.cons "scope" (.strList ["a"]) .nil) "scope" := by
  constructor
  · decide
  · decide

/-- C1 witness: a concrete token with a string claim and two signature
bytes round-trips to its JSON image, and the per-key lookup relation
holds. -/
theorem claim_C1_witness :
    Parse (Token.Serialize
      { Header := NewHeader,
        Body := GoPairs.cons "aud" (.str "x") .nil,
        Signature := some [1, 255] }) =
      .ok { Header := NewHeader,
            Body := normalizeBody (GoPairs.cons "aud" (.str "x") .nil),
            Signature := some [1, 255] } ∧
    pairsLookup (normalizeBody (GoPairs.cons "aud" (.str "x") .nil)) "aud" =
      (pairsLookup (GoPairs.cons "aud" (.str "x") .nil) "aud").map normalizeGoValue :=
  claim_C1
    { Header := NewHeader,
      Body := GoPairs.cons "aud" (.str "x") .nil,
      Signature := some [1, 255] }
    "aud"
    (GoValue.WF.obj (by decide) (GoPairs.WF.cons (GoValue.WF.str _) GoPairs.WF.nil))
    (by decide)

/-- C8: Whenever the ES256 signer returns successfully, its output is
exactly 64 bytes: `r` as a 32-byte big-endian integer left-padded with
zero bytes, concatenated with `s` encoded identically (each fits 32
bytes since the group order does); and the ES256 verifier returns false
for every signature whose length is not exactly 64 bytes. -/
theorem claim_C8 (n : Nat) (P : Type) [AddCommGroup P] [DecidableEq P] (G : P)
    (xModN : P → ZMod n) (hashFn : String → Nat) (hn0 : 0 < n) (hn : n ≤ 256 ^ 32)
    (d : ZMod n) (nonces : List (ZMod n)) (input : String) (sig : List Nat)
    (hok : (NewES256Signer n P G xModN hashFn d nonces).Sign input = .ok sig)
    (q : P) (input2 : String) (sig2 : List Nat) (hs2 : sig2.length ≠ 64) :
    sig.length = 64 ∧
    (∃ r s : ZMod n, ecdsaSignLoop n P G xModN d (hashFn input) nonces = some (r, s) ∧
      sig = beBytes 32 r.val ++ beBytes 32 s.val) ∧
    (NewES256Verifier n P G xModN hashFn q).Verify input2 sig2 = false := by
  have hnz : NeZero n := ⟨by omega⟩
  simp only [NewES256Signer] at hok
  split at hok
  · exact Except.noConfusion hok
  · next r s hloop =>
    rw [Except.ok.injEq] at hok
    subst hok
    have hdec : List.replicate (32 - (bigIntBytes r.val).length) 0 ++ bigIntBytes r.val ++
        (List.replicate (32 - (bigIntBytes s.val).length) 0 ++ bigIntBytes s.val) =
        beBytes 32 r.val ++ beBytes 32 s.val := by
      rw [pad_bigIntBytes_eq_beBytes 32 r.val (lt_of_lt_of_le (ZMod.val_lt r) hn),
        pad_bigIntBytes_eq_beBytes 32 s.val (lt_of_lt_of_le (ZMod.val_lt s) hn)]
    refine ⟨?_, ⟨r, s, hloop, hdec⟩, ?_⟩
    · rw [hdec]
      simp [beBytes_length]
    · simp only [NewES256Verifier]
      rw [if_neg hs2]

/-- C8 witness: over the order-2 model group the concrete signer outputs
the two padded 32-byte integers, and the verifier rejects the empty
signature. -/
theorem claim_C8_witness :
    ((List.replicate 31 0 ++ [1] ++ (List.replicate 31 0 ++ [1]) : List Nat)).length = 64 ∧
    (∃ r s : ZMod 2, ecdsaSignLoop 2 (ZMod 2) 1 (fun p => p) 1 0 [1] = some (r, s) ∧
      List.replicate 31 0 ++ [1] ++ (List.replicate 31 0 ++ [1]) =
        beBytes 32 r.val ++ beBytes 32 s.val) ∧
    (NewES256Verifier 2 (ZMod 2) 1 (fun p => p) (fun _ => 0) 0).Verify "x" [] = false :=
  claim_C8 2 (ZMod 2) 1 (fun p => p) (fun _ => 0) (by decide) (by decide) 1 [1] "m"
    (List.replicate 31 0 ++ [1] ++ (List.replicate 31 0 ++ [1]))
    (by decide) 0 "x" [] (by decide)

/-- C2: Signing a fresh unsigned token with an ES256 signer succeeds and
the signed token then verifies true under the verifier for the matching
public key `d • G`.  The curve is the abstract prime-order group of the
model (`n` prime, `addOrderOf G = n`, order fitting 32 bytes as P-256's
does), and the entropy stream supplies a nonce `k` whose signing attempt
passes the nonzero checks of `ecdsa.Sign`'s retry loop. -/
theorem claim_C2 (n : Nat) (P : Type) [AddCommGroup P] [DecidableEq P] (G : P)
    (xModN : P → ZMod n) (hashFn : String → Nat)
    (hp : n.Prime) (hord : addOrderOf G = n) (hn : n ≤ 256 ^ 32)
    (d k : ZMod n) (t : Token) (hts : t.IsSigned = false)
    (hk : k ≠ 0)
    (hr : xModN (k.val • G) ≠ 0)
    (hs : zinv n k * ((hashFn (serializeHeaderAndBody
        { Typ := t.Header.Typ, Algorithm := ES256 } t.Body) : ZMod n) +
        xModN (k.val • G) * d) ≠ 0) :
    ∃ t' : Token,
      t.Sign (NewES256Signer n P G xModN hashFn d [k]) = (none, t') ∧
      t'.Verify (NewES256Verifier n P G xModN hashFn (d.val • G)) = true := by
  have hnz : NeZero n := ⟨by have := hp.two_le; omega⟩
  have honce : ecdsaSignOnce n P G xModN d
      (hashFn (serializeHeaderAndBody
        { Typ := t.Header.Typ, Algorithm := ES256 } t.Body)) k =
      some (xModN (k.val • G),
        zinv n k * ((hashFn (serializeHeaderAndBody
          { Typ := t.Header.Typ, Algorithm := ES256 } t.Body) : ZMod n) +
          xModN (k.val • G) * d)) := by
    simp only [ecdsaSignOnce]
    rw [if_neg hk, if_neg hr, if_neg hs]
  have hloop : ecdsaSignLoop n P G xModN d
      (hashFn (serializeHeaderAndBody
        { Typ := t.Header.Typ, Algorithm := ES256 } t.Body)) [k] =
      some (xModN (k.val • G),
        zinv n k * ((hashFn (serializeHeaderAndBody
          { Typ := t.Header.Typ, Algorithm := ES256 } t.Body) : ZMod n) +
          xModN (k.val • G) * d)) := by
    simp only [ecdsaSignLoop, honce]
  refine ⟨{ t with
      Header := { Typ := t.Header.Typ, Algorithm := ES256 },
      Signature := some (beBytes 32 (xModN (k.val • G)).val ++
        beBytes 32 (zinv n k * ((hashFn (serializeHeaderAndBody
          { Typ := t.Header.Typ, Algorithm := ES256 } t.Body) : ZMod n) +
          xModN (k.val • G) * d)).val) }, ?_, ?_⟩
  · simp only [Token.Sign, hts, Bool.false_eq_true, if_false, NewES256Signer, hloop]
    rw [pad_bigIntBytes_eq_beBytes 32 _ (lt_of_lt_of_le (ZMod.val_lt _) hn),
      pad_bigIntBytes_eq_beBytes 32 _ (lt_of_lt_of_le (ZMod.val_lt _) hn)]
  · simp only [Token.Verify, Token.IsSigned, Option.isSome_some, Option.getD_some]
    rw [if_pos trivial]
    simp only [NewES256Verifier]
    rw [if_pos (by simp [List.length_append, beBytes_length])]
    have htake : (beBytes 32 (xModN (k.val • G)).val ++
        beBytes 32 (zinv n k * ((hashFn (serializeHeaderAndBody
          { Typ := t.Header.Typ, Algorithm := ES256 } t.Body) : ZMod n) +
          xModN (k.val • G) * d)).val).take 32 =
        beBytes 32 (xModN (k.val • G)).val := by
      have h := List.take_left (beBytes 32 (xModN (k.val • G)).val)
        (beBytes 32 (zinv n k * ((hashFn (serializeHeaderAndBody
          { Typ := t.Header.Typ, Algorithm := ES256 } t.Body) : ZMod n) +
          xModN (k.val • G) * d)).val)
      rwa [beBytes_length] at h
    have hdrop : (beBytes 32 (xModN (k.val • G)).val ++
        beBytes 32 (zinv n k * ((hashFn (serializeHeaderAndBody
          { Typ := t.Header.Typ, Algorithm := ES256 } t.Body) : ZMod n) +
          xModN (k.val • G) * d)).val).drop 32 =
        beBytes 32 (zinv n k * ((hashFn (serializeHeaderAndBody
          { Typ := t.Header.Typ, Algorithm := ES256 } t.Body) : ZMod n) +
          xModN (k.val • G) * d)).val := by
      have h := List.drop_left (beBytes 32 (xModN (k.val • G)).val)
        (beBytes 32 (zinv n k * ((hashFn (serializeHeaderAndBody
          { Typ := t.Header.Typ, Algorithm := ES256 } t.Body) : ZMod n) +
          xModN (k.val • G) * d)).val)
      rwa [beBytes_length] at h
    rw [htake, hdrop, bytesToNat_beBytes 32 _ (lt_of_lt_of_le (ZMod.val_lt _) hn),
      bytesToNat_beBytes 32 _ (lt_of_lt_of_le (ZMod.val_lt _) hn)]
    exact ecdsaVerify_of_signOnce n P G xModN hp hord d k _ _ _ honce

/-- C2 witness: over the order-2 model group with `d = k = 1`, a fresh
token signs successfully and the signed token verifies true. -/
theorem claim_C2_witness :
    ∃ t' : Token,
      NewToken.Sign (NewES256Signer 2 (ZMod 2) 1 (fun p => p) (fun _ => 0) 1 [1]) =
        (none, t') ∧
      t'.Verify (NewES256Verifier 2 (ZMod 2) 1 (fun p => p) (fun _ => 0)
        ((1 : ZMod 2).val • (1 : ZMod 2))) = true :=
  claim_C2 2 (ZMod 2) 1 (fun p => p) (fun _ => 0) Nat.prime_two (ZMod.addOrderOf_one 2)
    (by decide) 1 1 NewToken rfl (by decide) (by decide) (by decide)

end Jwt
